import Mathlib

/-!
# Verification of the DFA minimization program (`src/DFA_Minimization.c`)

Shallow embedding of the C program.  States live in a single array
(`allStates` in the C source); here a graph is a `List NState` and a state is
referenced by its index, which coincides with the C `id` field (assigned as
`nStates` at creation and re-assigned densely by `removeUnreachable`).
C `State*` transition pointers become `Option Nat` indices; `NULL` is `none`.
The C alphabet is fixed to two symbols (`ALPHABET_SIZE == 2`), so the
`next[2]` array becomes the two fields `next0`, `next1`.
Partitions (`Partition.states`) become `List Nat` blocks; the `partitionId`
field of the C code is always kept equal to the index of the partition
containing the state (`initialPartition` and every committed refinement pass
re-assign it that way), so it is recovered here by `pidOf`.
-/

namespace DFAC

/-- `MAX_STATES` from the C source. -/
def MAX_STATES : Nat := 64

/-- A DFA state: `struct State`.  The C `name[4]` buffer stores at most 3
characters (plus NUL); `createState` performs the truncation.  The `id` and
`partitionId` fields are represented positionally (see module docstring). -/
structure NState where
  name : List Char
  isFinal : Bool
  next0 : Option Nat
  next1 : Option Nat
deriving Repr, DecidableEq

instance : Inhabited NState := ⟨⟨[], false, none, none⟩⟩

/-- The global state array `allStates` (with `nStates = length`). -/
abbrev Graph := List NState

/-- `allStates[i]`; out-of-range reads return the default state (the C code
never performs them on well-formed data). -/
def stateAt (g : Graph) (i : Nat) : NState := g.getD i default

/-- `s->next[sym]` for `sym < ALPHABET_SIZE = 2`. -/
def nxt (s : NState) (sym : Fin 2) : Option Nat :=
  if sym = 0 then s.next0 else s.next1

/-- A transition target is valid when it indexes into the state array. -/
def okTarget (n : Nat) : Option Nat → Prop
  | none => True
  | some t => t < n

instance (n : Nat) (o : Option Nat) : Decidable (okTarget n o) :=
  match o with
  | none => isTrue trivial
  | some t => Nat.decLt t n

/-- Well-formedness of the state array: every transition pointer points
into `allStates` (always true for graphs built by `createState` and
transition assignment, since transitions store addresses of created
states). -/
def WF (g : Graph) : Prop :=
  ∀ s ∈ g, okTarget g.length s.next0 ∧ okTarget g.length s.next1

instance (g : Graph) : Decidable (WF g) := by
  unfold WF; exact List.decidableBAll _ g

/-- Outcome of a C operation that can terminate the process:
`exit(EXIT_FAILURE)` after printing to stderr is modelled by `abort` with the
printed message. -/
inductive CResult (α : Type) where
  | ok : α → CResult α
  | abort : String → CResult α
deriving Repr, DecidableEq

/-- `createState`: appends a fresh state (id = current `nStates`) or
terminates the process when `MAX_STATES` is reached.  The
`snprintf(s->name, sizeof(s->name), "%s", name)` call with a 4-byte buffer
keeps only the first 3 characters of `name`.  (A `malloc` failure also
aborts; allocation is assumed to succeed in this model.) -/
def createState (g : Graph) (name : List Char) (fin : Bool) :
    CResult (Graph × Nat) :=
  if MAX_STATES ≤ g.length then
    .abort "Error: MAX_STATES exceeded"
  else
    .ok (g ++ [⟨name.take 3, fin, none, none⟩], g.length)

/-! ## Semantics: runs, suffix languages, reachability -/

/-- Running the (partial) DFA from state `i` over a word: `none` when the run
dies on a missing transition. -/
def run (g : Graph) : Nat → List (Fin 2) → Option Nat
  | i, [] => some i
  | i, sym :: w =>
    match nxt (stateAt g i) sym with
    | none => none
    | some t => run g t w

/-- Outcome of a word from a state: `none` = the run dies,
`some b` = the run survives and `b` tells acceptance. -/
def status (g : Graph) (s : Nat) (w : List (Fin 2)) : Option Bool :=
  (run g s w).map fun j => (stateAt g j).isFinal

/-- Plain acceptance: a dead run rejects. -/
def accepts (g : Graph) (s : Nat) (w : List (Fin 2)) : Bool :=
  match run g s w with
  | some j => (stateAt g j).isFinal
  | none => false

/-- Two states have the same outcome on every suffix string. -/
def statusEq (g : Graph) (s t : Nat) : Prop :=
  ∀ w : List (Fin 2), status g s w = status g t w

/-- One transition step between (valid) states. -/
def Edge (g : Graph) (i j : Nat) : Prop :=
  i < g.length ∧ j < g.length ∧
    (nxt (stateAt g i) 0 = some j ∨ nxt (stateAt g i) 1 = some j)

instance (g : Graph) (i j : Nat) : Decidable (Edge g i j) := by
  unfold Edge; infer_instance

/-- Reachability via zero or more transitions. -/
def Reaches (g : Graph) (start : Nat) : Nat → Prop :=
  Relation.ReflTransGen (Edge g) start

/-! ## `markReachable` / `removeUnreachable` -/

/-- Targets reachable in one step from state `i` that are present in the
state array (`getStateIndexByPtr(target) != -1` in the C code). -/
def succsOf (g : Graph) (i : Nat) : List Nat :=
  ((stateAt g i).next0.toList ++ (stateAt g i).next1.toList).filter
    (· < g.length)

/-- One propagation sweep of the `while (changed)` loop in `markReachable`:
every present target of a reachable state becomes reachable. -/
def reachStep (g : Graph) (r : Finset Nat) : Finset Nat :=
  r ∪ r.biUnion fun i => (succsOf g i).toFinset

/-- `markReachable`: the set of indices marked `reachable`.  The C loop
repeats sweeps until a sweep adds nothing; `length g` sweeps always reach
that fixpoint (proved below), so the iteration count is fixed here.
If the start state is not found in `allStates` the C function prints an
error and returns with nothing marked. -/
def markReachable (g : Graph) (start : Nat) : Finset Nat :=
  if start < g.length then (reachStep g)^[g.length] {start} else ∅

/-- Indices (in increasing order) of the states that survive the compaction
loop of `removeUnreachable`. -/
def survivors (g : Graph) (start : Nat) : List Nat :=
  (List.range g.length).filter (· ∈ markReachable g start)

/-- Phase 1 of `removeUnreachable`: a transition whose target is present but
unreachable is set to `NULL`.  (A target not present in `allStates` —
impossible for well-formed graphs — is left untouched, as in the C code.) -/
def clearTarget (g : Graph) (start : Nat) : Option Nat → Option Nat
  | none => none
  | some t =>
    if t < g.length ∧ t ∉ markReachable g start then none else some t

/-- Phase 2: after compaction, a surviving target pointer denotes the
position of the target among the survivors (its new dense id). -/
def renumber (surv : List Nat) (o : Option Nat) : Option Nat :=
  o.map fun t => surv.indexOf t

/-- `removeUnreachable`: clear transitions to unreachable states, drop the
unreachable states, renumber survivors densely in their original order. -/
def removeUnreachable (g : Graph) (start : Nat) : Graph :=
  (survivors g start).map fun i =>
    let s := stateAt g i
    { name := s.name, isFinal := s.isFinal,
      next0 := renumber (survivors g start) (clearTarget g start s.next0),
      next1 := renumber (survivors g start) (clearTarget g start s.next1) }

/-! ## Partitions -/

/-- `Partition.states`, as a list of state indices. -/
abbrev Block := List Nat

/-- The array `partitions[0..nPartitions)`. -/
abbrev Part := List Block

/-- The `partitionId` field of state `s`: the id (= index) of the partition
containing it, `-1` if none (its initialization value in the C code). -/
def pidOf : Part → Nat → Int
  | [], _ => -1
  | b :: rest, s =>
    if s ∈ b then 0
    else
      let r := pidOf rest s
      if r = -1 then -1 else r + 1

/-- The refinement signature of a state: for each symbol, the `partitionId`
of the transition target, with the sentinel `-2` for a missing transition
(`next_s ? next_s->partitionId : -2` in `refineAllPartitions`). -/
def sigOf (g : Graph) (P : Part) (s : Nat) : Int × Int :=
  ((match (stateAt g s).next0 with
    | none => -2
    | some t => pidOf P t),
   (match (stateAt g s).next1 with
    | none => -2
    | some t => pidOf P t))

/-- Two states lie in a common partition of `P`. -/
def sameBlock (P : Part) (s t : Nat) : Prop :=
  ∃ b ∈ P, s ∈ b ∧ t ∈ b

instance (P : Part) (s t : Nat) : Decidable (sameBlock P s t) := by
  unfold sameBlock; exact List.decidableBEx _ P

/-- Inner placement loop of a refinement pass: state `s` joins the first
sub-partition whose representative (`states[0]`) has the same signature,
otherwise it opens a new sub-partition at the end. -/
def placeState (g : Graph) (P : Part) : List Block → Nat → List Block
  | [], s => [[s]]
  | b :: rest, s =>
    if sigOf g P (b.headD 0) = sigOf g P s then (b ++ [s]) :: rest
    else b :: placeState g P rest s

/-- Splitting one partition: the first member opens sub-partition 0, the
remaining members are placed in order. -/
def splitBlock (g : Graph) (P : Part) : Block → List Block
  | [] => []
  | s0 :: rest => rest.foldl (placeState g P) [[s0]]

/-- Appending to `newPartitionsList` guarded by
`newNPartitionsCounter < MAX_STATES` (the guard never fires for graphs with
at most `MAX_STATES` states). -/
def appendCapped (xs : List Block) (b : Block) : List Block :=
  if xs.length < MAX_STATES then xs ++ [b] else xs

/-- Body of the `for (i…) { … }` loop over existing partitions in one
refinement pass; the accumulator is `(newPartitionsList, changedInPass)`. -/
def passOneStep (g : Graph) (P : Part) (acc : List Block × Bool) (b : Block) :
    List Block × Bool :=
  if b.length ≤ 1 then
    (if 0 < b.length then appendCapped acc.1 b else acc.1, acc.2)
  else
    let subs := splitBlock g P b
    (subs.foldl appendCapped acc.1, acc.2 || decide (1 < subs.length))

/-- One full refinement pass: the new partition list and `changedInPass`. -/
def passOne (g : Graph) (P : Part) : List Block × Bool :=
  P.foldl (passOneStep g P) ([], false)

/-- The commit step at the end of a pass: the new list replaces the old one
when `changedInPass || newNPartitionsCounter != nPartitions`. -/
def refineStep (g : Graph) (P : Part) : Part × Bool :=
  let r := passOne g P
  (if r.2 || decide (r.1.length ≠ P.length) then r.1 else P, r.2)

/-- The `do … while (changedInPass)` loop, with explicit fuel.  The program
always reaches the fixpoint within `length g` passes (proved below), so the
fuel used by `refineAllPartitions` is never exhausted. -/
def refineLoop (g : Graph) : Part → Nat → Part
  | P, 0 => P
  | P, fuel + 1 =>
    let r := refineStep g P
    if r.2 then refineLoop g r.1 fuel else r.1

/-- `initialPartition`: partition of the (id-ordered) states into final and
non-final states, final partition first, empty groups omitted. -/
def initialPartition (g : Graph) : Part :=
  let fins := (List.range g.length).filter fun i => (stateAt g i).isFinal
  let nonfins := (List.range g.length).filter fun i => !(stateAt g i).isFinal
  (if fins.isEmpty then [] else [fins]) ++
    (if nonfins.isEmpty then [] else [nonfins])

/-- `refineAllPartitions`, run after `initialPartition` (as in `main`). -/
def refineAllPartitions (g : Graph) : Part :=
  refineLoop g (initialPartition g) (g.length + 1)

/-! ## The minimized-DFA projection (`printMinimizedDFA`) -/

/-- One row of the minimized transition table: `S<id>` with the member list,
the accepting flag of the representative (`states[0]`), and the
`partitionId` of the representative's target for each symbol (`none` is the
"-" placeholder). -/
structure MinState where
  id : Nat
  memberNames : List (List Char)
  isFinal : Bool
  nextA : Option Int
  nextB : Option Int
deriving Repr, DecidableEq

/-- The structured content of the minimized table printed by
`printMinimizedDFA`: one row per non-empty partition. -/
def buildMin (g : Graph) (P : Part) : List MinState :=
  (P.enum.filter fun p => p.2.length ≠ 0).map fun p =>
    { id := p.1,
      memberNames := p.2.map fun s => (stateAt g s).name,
      isFinal := (stateAt g (p.2.headD 0)).isFinal,
      nextA := ((stateAt g (p.2.headD 0)).next0).map (pidOf P),
      nextB := ((stateAt g (p.2.headD 0)).next1).map (pidOf P) }

/-- The whole pipeline of `main`: prune, partition, refine, project. -/
def minimizeDFA (g : Graph) (start : Nat) : List MinState :=
  let g2 := removeUnreachable g start
  buildMin g2 (refineAllPartitions g2)

/-! ## Concrete graphs used in the theorems below -/

/-- "Example DFA 2" from `main`: q1 (index 0, start, non-final),
q2 (index 1, final), q3 (index 2, final), q4 (index 3, non-final,
unreachable). -/
def gEx2 : Graph := [
  ⟨['q','1'], false, some 1, some 2⟩,
  ⟨['q','2'], true,  some 2, some 1⟩,
  ⟨['q','3'], true,  some 2, some 1⟩,
  ⟨['q','4'], false, some 1, some 2⟩]

/-- A partial DFA with no accepting state: all states accept the empty
language, yet state 1 (a transition into the dead state 3) and state 2 (no
transition at all) end up in different partitions. -/
def gCE : Graph := [
  ⟨['q','0'], false, some 1, some 2⟩,
  ⟨['q','1'], false, some 3, none⟩,
  ⟨['q','2'], false, none,   none⟩,
  ⟨['q','3'], false, none,   none⟩]

/-- A one-state graph, used with a start reference (index 5) that is not
present in it. -/
def gOne : Graph := [⟨['q','0'], false, none, none⟩]

/-- Scenario B of the spec: the already-minimal two-state DFA
`q_a(no) →{0:q_b,1:q_a}`, `q_b(yes) →{0:q_b,1:q_a}`, start `q_a`. -/
def gB : Graph := [
  ⟨['q','a'], false, some 1, some 0⟩,
  ⟨['q','b'], true,  some 1, some 0⟩]

/-- A DFA is already minimal (with respect to the equivalence this program
computes): every state is reachable from the start state, and distinct
states differ in outcome on some suffix string. -/
def Minimal (g : Graph) (start : Nat) : Prop :=
  (∀ i < g.length, Reaches g start i) ∧
    ∀ s t : Nat, s < g.length → t < g.length → statusEq g s t → s = t

/-! ## Partition invariants and the unguarded refinement pass -/

/-- The partition list is an actual partition of the states: its blocks are
non-empty and their concatenation enumerates every state index exactly once.
`initialPartition` establishes this and every committed pass preserves it. -/
def ValidPart (g : Graph) (P : Part) : Prop :=
  P.flatten.Perm (List.range g.length) ∧ ∀ b ∈ P, b ≠ []

instance (g : Graph) (P : Part) : Decidable (ValidPart g P) := by
  unfold ValidPart; infer_instance

/-- All members of each block agree on the accepting flag. -/
def AgreeFinal (g : Graph) (P : Part) : Prop :=
  ∀ b ∈ P, ∀ s ∈ b, ∀ t ∈ b, (stateAt g s).isFinal = (stateAt g t).isFinal

/-- Completeness invariant of refinement: states with identical outcome on
every suffix string are never separated. -/
def Sat (g : Graph) (P : Part) : Prop :=
  ∀ s t : Nat, s < g.length → t < g.length → statusEq g s t →
    sameBlock P s t

/-- What one pass does to a single partition, with the (never firing, for
graphs within `MAX_STATES`) capacity guard removed. -/
def blockRefine (g : Graph) (P : Part) (b : Block) : List Block :=
  if b.length ≤ 1 then [b] else splitBlock g P b

/-- Unguarded form of the new partition list built by one pass. -/
def passOneU (g : Graph) (P : Part) : List Block :=
  P.flatMap (blockRefine g P)

/-- Unguarded form of the `changedInPass` flag: some partition with at least
two members split. -/
def changedU (g : Graph) (P : Part) : Bool :=
  P.any fun b => decide (1 < b.length) &&
    decide (1 < (splitBlock g P b).length)

/-- Invariant of the sub-partition list during one split: blocks are
non-empty, each block's members share its representative's signature, and
distinct blocks have representatives with pairwise distinct signatures. -/
def SubsInv (g : Graph) (P : Part) (subs : List Block) : Prop :=
  (∀ c ∈ subs, c ≠ []) ∧
  (∀ c ∈ subs, ∀ x ∈ c, sigOf g P x = sigOf g P (c.headD 0)) ∧
  (subs.map fun c => sigOf g P (c.headD 0)).Pairwise (· ≠ ·)

/-! # Reachability machinery -/

theorem nxt_zero (s : NState) : nxt s 0 = s.next0 := rfl

theorem nxt_one (s : NState) : nxt s 1 = s.next1 := by
  unfold nxt
  rw [if_neg (by decide)]

theorem subset_reachStep (g : Graph) (r : Finset Nat) : r ⊆ reachStep g r :=
  Finset.subset_union_left

theorem reachStep_subset_range {g : Graph} {r : Finset Nat}
    (h : r ⊆ Finset.range g.length) :
    reachStep g r ⊆ Finset.range g.length := by
  refine Finset.union_subset h (Finset.biUnion_subset.2 fun i _ => ?_)
  intro x hx
  rw [List.mem_toFinset] at hx
  unfold succsOf at hx
  rw [List.mem_filter] at hx
  exact Finset.mem_range.2 (by simpa using hx.2)

theorem iter_subset_range {g : Graph} {start : Nat} (h : start < g.length) :
    ∀ k, (reachStep g)^[k] {start} ⊆ Finset.range g.length := by
  intro k
  induction k with
  | zero => simpa using Finset.mem_range.2 h
  | succ k ih =>
    rw [Function.iterate_succ_apply']
    exact reachStep_subset_range ih

theorem iter_le_iter {g : Graph} {start : Nat} {j k : Nat} (h : j ≤ k) :
    (reachStep g)^[j] {start} ⊆ (reachStep g)^[k] {start} := by
  obtain ⟨d, rfl⟩ := Nat.le.dest h
  clear h
  induction d with
  | zero => exact fun x hx => hx
  | succ d ih =>
    intro x hx
    rw [show j + (d + 1) = (j + d) + 1 by omega, Function.iterate_succ_apply']
    exact subset_reachStep _ _ (ih hx)

theorem iter_fix_exists (g : Graph) (start : Nat) (h : start < g.length) :
    ∃ k ≤ g.length,
      (reachStep g)^[k + 1] {start} = (reachStep g)^[k] {start} := by
  by_contra hcon
  push_neg at hcon
  have grow : ∀ k, k ≤ g.length + 1 →
      k + 1 ≤ ((reachStep g)^[k] ({start} : Finset Nat)).card := by
    intro k
    induction k with
    | zero => intro _; simp
    | succ k ih =>
      intro hk
      have h1 : k + 1 ≤ ((reachStep g)^[k] ({start} : Finset Nat)).card :=
        ih (by omega)
      have hne := hcon k (by omega)
      have hss : (reachStep g)^[k] ({start} : Finset Nat) ⊂
          (reachStep g)^[k + 1] {start} :=
        lt_of_le_of_ne (iter_le_iter (by omega)) (Ne.symm hne)
      have := Finset.card_lt_card hss
      omega
  have h1 := grow (g.length + 1) (le_refl _)
  have h2 : ((reachStep g)^[g.length + 1] ({start} : Finset Nat)).card ≤
      g.length := by
    have := Finset.card_le_card (iter_subset_range h (g.length + 1))
    simpa using this
  omega

theorem reachStep_markReachable {g : Graph} {start : Nat}
    (h : start < g.length) :
    reachStep g (markReachable g start) = markReachable g start := by
  obtain ⟨k, hk, hfix⟩ := iter_fix_exists g start h
  have stable : ∀ m, (reachStep g)^[k + m] ({start} : Finset Nat) =
      (reachStep g)^[k] {start} := by
    intro m
    induction m with
    | zero => rfl
    | succ m ih =>
      rw [show k + (m + 1) = (k + m) + 1 by omega,
        Function.iterate_succ_apply', ih]
      have h2 := hfix
      rw [Function.iterate_succ_apply'] at h2
      exact h2
  have hmark : markReachable g start = (reachStep g)^[k] {start} := by
    unfold markReachable
    rw [if_pos h, show g.length = k + (g.length - k) by omega, stable]
  rw [hmark]
  have h2 := hfix
  rw [Function.iterate_succ_apply'] at h2
  exact h2

theorem mem_iter_reaches {g : Graph} {start : Nat} (h : start < g.length) :
    ∀ k j, j ∈ (reachStep g)^[k] ({start} : Finset Nat) →
      Reaches g start j := by
  intro k
  induction k with
  | zero =>
    intro j hj
    rw [Function.iterate_zero_apply, Finset.mem_singleton] at hj
    exact hj ▸ Relation.ReflTransGen.refl
  | succ k ih =>
    intro j hj
    rw [Function.iterate_succ_apply'] at hj
    rcases Finset.mem_union.1 hj with hj | hj
    · exact ih j hj
    · obtain ⟨i, hi, hji⟩ := Finset.mem_biUnion.1 hj
      rw [List.mem_toFinset] at hji
      unfold succsOf at hji
      rw [List.mem_filter] at hji
      obtain ⟨hmem, hlt⟩ := hji
      have hjlen : j < g.length := by simpa using hlt
      have hilen : i < g.length :=
        Finset.mem_range.1 (iter_subset_range h k hi)
      have hedge : Edge g i j := by
        refine ⟨hilen, hjlen, ?_⟩
        rw [nxt_zero, nxt_one]
        rcases List.mem_append.1 hmem with hm | hm <;>
          [left; right] <;>
          simpa [Option.mem_toList, Option.mem_def] using hm
      exact Relation.ReflTransGen.tail (ih i hi) hedge

theorem reaches_mem_markReachable {g : Graph} {start j : Nat}
    (h : start < g.length) (hr : Reaches g start j) :
    j ∈ markReachable g start := by
  induction hr with
  | refl =>
    have h0 : start ∈ (reachStep g)^[0] ({start} : Finset Nat) := by
      simp
    have hsub : ((reachStep g)^[0] ({start} : Finset Nat)) ⊆
        (reachStep g)^[g.length] {start} := iter_le_iter (by omega)
    unfold markReachable
    rw [if_pos h]
    exact hsub h0
  | tail _ hedge ih =>
    rename_i b c _
    rw [← reachStep_markReachable h]
    refine Finset.mem_union.2 (Or.inr (Finset.mem_biUnion.2 ⟨b, ih, ?_⟩))
    rw [List.mem_toFinset]
    unfold succsOf
    rw [List.mem_filter]
    obtain ⟨_, hclen, hor⟩ := hedge
    constructor
    · rw [List.mem_append]
      rcases hor with hm | hm
      · left; rw [nxt_zero] at hm; simp [hm]
      · right; rw [nxt_one] at hm; simp [hm]
    · simpa using hclen

theorem mem_markReachable_iff {g : Graph} {start j : Nat}
    (h : start < g.length) :
    j ∈ markReachable g start ↔ Reaches g start j := by
  constructor
  · intro hj
    unfold markReachable at hj
    rw [if_pos h] at hj
    exact mem_iter_reaches h g.length j hj
  · exact reaches_mem_markReachable h

theorem reaches_lt {g : Graph} {start t : Nat} (h : start < g.length)
    (hr : Reaches g start t) : t < g.length := by
  induction hr with
  | refl => exact h
  | tail _ hedge _ => exact hedge.2.1

theorem getD_eq_getElem_of_lt {α : Type} (l : List α) (d : α) {i : Nat}
    (h : i < l.length) : l.getD i d = l[i] := by
  rw [List.getD_eq_getElem?_getD, List.getElem?_eq_getElem h]
  rfl

theorem stateAt_map_of_lt (f : Nat → NState) (l : List Nat) {j : Nat}
    (h : j < l.length) : stateAt (l.map f) j = f (l.getD j 0) := by
  unfold stateAt
  rw [getD_eq_getElem_of_lt _ _ (by simpa using h), List.getElem_map,
    getD_eq_getElem_of_lt _ _ h]

theorem mem_survivors_iff {g : Graph} {start : Nat} (h : start < g.length)
    (i : Nat) :
    i ∈ survivors g start ↔ i < g.length ∧ Reaches g start i := by
  unfold survivors
  rw [List.mem_filter, List.mem_range]
  constructor
  · rintro ⟨h1, h2⟩
    exact ⟨h1, (mem_markReachable_iff h).1 (by simpa using h2)⟩
  · rintro ⟨h1, h2⟩
    exact ⟨h1, by simpa using (mem_markReachable_iff h).2 h2⟩

/-! # Theorems for the claims that are settled by direct evaluation -/

/-- C2: on Example DFA 2 the pipeline prunes q4 (only q1,q2,q3 survive,
renumbered 0,1,2 with unchanged transitions), forms the initial partitions
`{q2,q3}` (accepting, partition 0) and `{q1}` (non-accepting, partition 1),
keeps q2 and q3 merged at the refinement fixpoint, and yields exactly two
minimized states: `S0 = {q2,q3}` accepting with self-loops on both symbols
and `S1 = {q1}` non-accepting with both transitions into `S0`. -/
theorem C2_example_pipeline :
    removeUnreachable gEx2 0 = [
      ⟨['q','1'], false, some 1, some 2⟩,
      ⟨['q','2'], true,  some 2, some 1⟩,
      ⟨['q','3'], true,  some 2, some 1⟩] ∧
    initialPartition (removeUnreachable gEx2 0) = [[1, 2], [0]] ∧
    refineAllPartitions (removeUnreachable gEx2 0) = [[1, 2], [0]] ∧
    minimizeDFA gEx2 0 = [
      ⟨0, [['q','2'], ['q','3']], true, some 0, some 0⟩,
      ⟨1, [['q','1']], false, some 0, some 0⟩] := by
  refine ⟨?_, ?_, ?_, ?_⟩ <;> decide

/-- C4 (evidence for the divergence): when the start reference is not
present in the graph, `markReachable` only prints an error and returns with
nothing marked, so `removeUnreachable` deletes every state — the graph is
not left intact — and the pipeline continues, producing an empty table
instead of an explicit not-found failure result. -/
theorem C4_start_not_found_destroys_graph :
    removeUnreachable gOne 5 = [] ∧ minimizeDFA gOne 5 = [] := by
  exact ⟨by decide, by decide⟩

/-- C5 (counterexample to the claim as stated): at capacity, `createState`
does not return a resource-exhaustion error result — it prints to stderr
and terminates the whole process via `exit(EXIT_FAILURE)`, modelled by the
`abort` outcome. -/
theorem C5_counterexample :
    createState (List.replicate MAX_STATES default) ['x'] false =
      .abort "Error: MAX_STATES exceeded" := by
  decide

/-- C5 (amended): when creating a state would exceed `MAX_STATES` (a global
constant, 64), the program prints "Error: MAX_STATES exceeded" and aborts
the process; the state array is never extended beyond the bound and no data
is corrupted.  Below the bound, creation appends exactly one state. -/
theorem C5_capacity_aborts (g : Graph) (name : List Char) (fin : Bool) :
    (MAX_STATES ≤ g.length →
      createState g name fin = .abort "Error: MAX_STATES exceeded") ∧
    (g.length < MAX_STATES →
      createState g name fin =
        .ok (g ++ [⟨name.take 3, fin, none, none⟩], g.length)) := by
  constructor
  · intro h; unfold createState; rw [if_pos h]
  · intro h; unfold createState; rw [if_neg (by omega)]

theorem C5_capacity_aborts_witness :
    createState (List.replicate 65 default) [] true =
      .abort "Error: MAX_STATES exceeded" :=
  (C5_capacity_aborts (List.replicate 65 default) [] true).1 (by decide)

/-- C10: the stored display name of a created state is exactly the first 3
characters of the supplied name (silent truncation by `snprintf` into the
4-byte `name` buffer), so two states created with distinct long names can
end up with identical display names. -/
theorem C10_name_truncation :
    (∀ (g : Graph) (name : List Char) (fin : Bool), g.length < MAX_STATES →
      createState g name fin =
        .ok (g ++ [⟨name.take 3, fin, none, none⟩], g.length)) ∧
    (∃ s1 s2 : NState,
      createState [] ['a','b','c','d'] false = .ok ([s1], 0) ∧
      createState [] ['a','b','c','e'] false = .ok ([s2], 0) ∧
      ['a','b','c','d'] ≠ ['a','b','c','e'] ∧ s1.name = s2.name) := by
  constructor
  · intro g name fin h; unfold createState; rw [if_neg (by omega)]
  · exact ⟨⟨['a','b','c'], false, none, none⟩, ⟨['a','b','c'], false, none, none⟩,
      by decide, by decide, by decide, rfl⟩

theorem C10_name_truncation_witness :
    createState [] ['s','t','a','t','e','A'] true =
      .ok ([⟨['s','t','a'], true, none, none⟩], 0) :=
  C10_name_truncation.1 [] ['s','t','a','t','e','A'] true (by decide)

/-- C3: for every well-formed graph whose start state is present,
`removeUnreachable` keeps exactly the states reachable from the start state
via zero or more transitions (first conjunct), in their original relative
order (second conjunct: the list of surviving old indices is increasing),
renumbered to dense 0-based ids (third/fifth conjuncts: the new id of a
reachable state is its position among the survivors); name and accepting
flag are preserved and a transition is renumbered to its target's new id
when the target survives and set to none when its target was removed
(fourth conjunct). -/
theorem C3_removeUnreachable (g : Graph) (start : Nat)
    (hstart : start < g.length) (hwf : WF g) :
    (∀ i, i ∈ survivors g start ↔ i < g.length ∧ Reaches g start i) ∧
    (survivors g start).Pairwise (· < ·) ∧
    (removeUnreachable g start).length = (survivors g start).length ∧
    (∀ j, j < (survivors g start).length →
      (stateAt (removeUnreachable g start) j).name =
        (stateAt g ((survivors g start).getD j 0)).name ∧
      (stateAt (removeUnreachable g start) j).isFinal =
        (stateAt g ((survivors g start).getD j 0)).isFinal ∧
      ∀ sym : Fin 2,
        (nxt (stateAt g ((survivors g start).getD j 0)) sym = none →
          nxt (stateAt (removeUnreachable g start) j) sym = none) ∧
        (∀ t, nxt (stateAt g ((survivors g start).getD j 0)) sym = some t →
          (Reaches g start t →
            nxt (stateAt (removeUnreachable g start) j) sym =
              some ((survivors g start).indexOf t)) ∧
          (¬ Reaches g start t →
            nxt (stateAt (removeUnreachable g start) j) sym = none))) ∧
    (∀ t, Reaches g start t →
      (survivors g start).indexOf t < (survivors g start).length ∧
      (survivors g start).getD ((survivors g start).indexOf t) 0 = t) := by
  refine ⟨mem_survivors_iff hstart, ?_, ?_, ?_, ?_⟩
  · exact List.Pairwise.sublist (List.filter_sublist _)
      (List.pairwise_lt_range _)
  · unfold removeUnreachable
    rw [List.length_map]
  · intro j hj
    have hjm : (survivors g start).getD j 0 ∈ survivors g start := by
      rw [getD_eq_getElem_of_lt _ _ hj]
      exact List.getElem_mem _
    set i := (survivors g start).getD j 0 with hi
    have hilen : i < g.length := ((mem_survivors_iff hstart i).1 hjm).1
    have hstm : stateAt g i ∈ g := by
      unfold stateAt
      rw [getD_eq_getElem_of_lt _ _ hilen]
      exact List.getElem_mem _
    have hmap : stateAt (removeUnreachable g start) j =
        { name := (stateAt g i).name, isFinal := (stateAt g i).isFinal,
          next0 := renumber (survivors g start)
            (clearTarget g start (stateAt g i).next0),
          next1 := renumber (survivors g start)
            (clearTarget g start (stateAt g i).next1) } := by
      unfold removeUnreachable
      rw [stateAt_map_of_lt _ _ hj]
    rw [hmap]
    have htrans : ∀ o : Option Nat, okTarget g.length o →
        (o = none → renumber (survivors g start) (clearTarget g start o) =
          none) ∧
        (∀ t, o = some t →
          (Reaches g start t →
            renumber (survivors g start) (clearTarget g start o) =
              some ((survivors g start).indexOf t)) ∧
          (¬ Reaches g start t →
            renumber (survivors g start) (clearTarget g start o) = none)) := by
      intro o hok
      constructor
      · rintro rfl
        rfl
      · rintro t rfl
        have htl : t < g.length := hok
        constructor
        · intro hr
          have hm : t ∈ markReachable g start :=
            (mem_markReachable_iff hstart).2 hr
          simp only [clearTarget]
          rw [if_neg (by tauto)]
          rfl
        · intro hr
          have hm : t ∉ markReachable g start :=
            fun hmm => hr ((mem_markReachable_iff hstart).1 hmm)
          simp only [clearTarget]
          rw [if_pos ⟨htl, hm⟩]
          rfl
    refine ⟨rfl, rfl, ?_⟩
    intro sym
    fin_cases sym
    · exact htrans _ ((hwf _ hstm).1)
    · exact htrans _ ((hwf _ hstm).2)
  · intro t ht
    have hmem : t ∈ survivors g start :=
      (mem_survivors_iff hstart t).2 ⟨reaches_lt hstart ht, ht⟩
    have hlt : (survivors g start).indexOf t < (survivors g start).length :=
      List.indexOf_lt_length.2 hmem
    refine ⟨hlt, ?_⟩
    rw [getD_eq_getElem_of_lt _ _ hlt]
    exact List.getElem_indexOf hlt

/-! # Partition refinement machinery: placement and splitting -/

theorem placeState_length_le (g : Graph) (P : Part) :
    ∀ (subs : List Block) (s : Nat),
      subs.length ≤ (placeState g P subs s).length := by
  intro subs s
  induction subs with
  | nil => simp [placeState]
  | cons b rest ih =>
    simp only [placeState]
    by_cases h : sigOf g P (b.headD 0) = sigOf g P s
    · rw [if_pos h]
      simp
    · rw [if_neg h]
      simp only [List.length_cons]
      omega

theorem foldl_place_length_le (g : Graph) (P : Part) :
    ∀ (l : List Nat) (subs : List Block),
      subs.length ≤ (l.foldl (placeState g P) subs).length := by
  intro l
  induction l with
  | nil => intro subs; simp
  | cons s l ih =>
    intro subs
    simp only [List.foldl_cons]
    calc subs.length ≤ (placeState g P subs s).length :=
          placeState_length_le g P subs s
      _ ≤ _ := ih _

theorem placeState_flatten_perm (g : Graph) (P : Part) :
    ∀ (subs : List Block) (s : Nat),
      (placeState g P subs s).flatten.Perm (subs.flatten ++ [s]) := by
  intro subs s
  induction subs with
  | nil => simp [placeState]
  | cons b rest ih =>
    simp only [placeState]
    by_cases h : sigOf g P (b.headD 0) = sigOf g P s
    · rw [if_pos h]
      simp only [List.flatten_cons, List.append_assoc]
      exact List.Perm.append_left b List.perm_append_comm
    · rw [if_neg h]
      simp only [List.flatten_cons, List.append_assoc]
      exact List.Perm.append_left b ih

theorem foldl_place_flatten_perm (g : Graph) (P : Part) :
    ∀ (l : List Nat) (subs : List Block),
      ((l.foldl (placeState g P) subs).flatten).Perm (subs.flatten ++ l) := by
  intro l
  induction l with
  | nil =>
    intro subs
    rw [List.foldl_nil, List.append_nil]
  | cons s l ih =>
    intro subs
    simp only [List.foldl_cons]
    refine (ih (placeState g P subs s)).trans ?_
    refine (List.Perm.append_right l
      (placeState_flatten_perm g P subs s)).trans ?_
    rw [List.append_assoc, List.singleton_append]

theorem splitBlock_flatten_perm (g : Graph) (P : Part) (b : Block)
    (hb : b ≠ []) : ((splitBlock g P b).flatten).Perm b := by
  match b, hb with
  | s0 :: rest, _ =>
    simp only [splitBlock]
    refine (foldl_place_flatten_perm g P rest [[s0]]).trans ?_
    simp

theorem placeState_ne_nil (g : Graph) (P : Part) :
    ∀ (subs : List Block) (s : Nat), (∀ c ∈ subs, c ≠ []) →
      ∀ c ∈ placeState g P subs s, c ≠ [] := by
  intro subs s
  induction subs with
  | nil =>
    intro _ c hc
    simp only [placeState, List.mem_singleton] at hc
    subst hc
    simp
  | cons b rest ih =>
    intro hne c hc
    simp only [placeState] at hc
    by_cases h : sigOf g P (b.headD 0) = sigOf g P s
    · rw [if_pos h] at hc
      rcases List.mem_cons.1 hc with rfl | hc
      · simp
      · exact hne c (List.mem_cons_of_mem _ hc)
    · rw [if_neg h] at hc
      rcases List.mem_cons.1 hc with rfl | hc
      · exact hne _ (List.mem_cons_self _ _)
      · exact ih (fun d hd => hne d (List.mem_cons_of_mem _ hd)) c hc

theorem foldl_place_ne_nil (g : Graph) (P : Part) :
    ∀ (l : List Nat) (subs : List Block), (∀ c ∈ subs, c ≠ []) →
      ∀ c ∈ l.foldl (placeState g P) subs, c ≠ [] := by
  intro l
  induction l with
  | nil => intro subs h; simpa using h
  | cons s l ih =>
    intro subs h
    simp only [List.foldl_cons]
    exact ih _ (placeState_ne_nil g P subs s h)

theorem splitBlock_ne_nil (g : Graph) (P : Part) (b : Block) :
    ∀ c ∈ splitBlock g P b, c ≠ [] := by
  match b with
  | [] => intro c hc; simp [splitBlock] at hc
  | s0 :: rest =>
    simp only [splitBlock]
    exact foldl_place_ne_nil g P rest [[s0]] (by simp)

theorem splitBlock_length_pos (g : Graph) (P : Part) (b : Block)
    (hb : b ≠ []) : 1 ≤ (splitBlock g P b).length := by
  match b, hb with
  | s0 :: rest, _ =>
    simp only [splitBlock]
    have h := foldl_place_length_le g P rest [[s0]]
    simpa using h

theorem headD_append_of_ne_nil {b : Block} (hb : b ≠ []) (l : Block)
    (d : Nat) : (b ++ l).headD d = b.headD d := by
  match b, hb with
  | x :: b, _ => rfl

theorem sig_heads_place_mem (g : Graph) (P : Part) :
    ∀ (subs : List Block) (s : Nat), (∀ c ∈ subs, c ≠ []) →
      ∀ y ∈ (placeState g P subs s).map (fun c => sigOf g P (c.headD 0)),
        y ∈ subs.map (fun c => sigOf g P (c.headD 0)) ∨ y = sigOf g P s := by
  intro subs s
  induction subs with
  | nil =>
    intro _ y hy
    simp only [placeState, List.map_cons, List.map_nil,
      List.mem_singleton] at hy
    right
    rw [hy]
    rfl
  | cons b rest ih =>
    intro hne y hy
    have hb : b ≠ [] := hne b (List.mem_cons_self _ _)
    simp only [placeState] at hy
    by_cases h : sigOf g P (b.headD 0) = sigOf g P s
    · rw [if_pos h] at hy
      simp only [List.map_cons, List.mem_cons] at hy
      rcases hy with hy | hy
      · left
        rw [headD_append_of_ne_nil hb] at hy
        simp only [List.map_cons, List.mem_cons]
        exact Or.inl hy
      · left
        simp only [List.map_cons, List.mem_cons]
        exact Or.inr hy
    · rw [if_neg h] at hy
      simp only [List.map_cons, List.mem_cons] at hy
      rcases hy with hy | hy
      · left
        simp only [List.map_cons, List.mem_cons]
        exact Or.inl hy
      · rcases ih (fun d hd => hne d (List.mem_cons_of_mem _ hd)) y hy with
          hy2 | hy2
        · left
          simp only [List.map_cons, List.mem_cons]
          exact Or.inr hy2
        · right
          exact hy2

theorem placeState_SubsInv (g : Graph) (P : Part) :
    ∀ (subs : List Block) (s : Nat), SubsInv g P subs →
      SubsInv g P (placeState g P subs s) := by
  intro subs s
  induction subs with
  | nil =>
    intro _
    refine ⟨?_, ?_, ?_⟩
    · intro c hc
      simp only [placeState, List.mem_singleton] at hc
      subst hc
      simp
    · intro c hc x hx
      simp only [placeState, List.mem_singleton] at hc
      subst hc
      simp only [List.mem_singleton] at hx
      subst hx
      rfl
    · simp [placeState]
  | cons b rest ih =>
    rintro ⟨h1, h2, h3⟩
    have hb : b ≠ [] := h1 b (List.mem_cons_self _ _)
    have htail : SubsInv g P rest :=
      ⟨fun c hc => h1 c (List.mem_cons_of_mem _ hc),
       fun c hc => h2 c (List.mem_cons_of_mem _ hc),
       (List.pairwise_cons.1 (by simpa only [List.map_cons] using h3)).2⟩
    simp only [placeState]
    by_cases h : sigOf g P (b.headD 0) = sigOf g P s
    · rw [if_pos h]
      refine ⟨?_, ?_, ?_⟩
      · intro c hc
        rcases List.mem_cons.1 hc with rfl | hc
        · simp
        · exact h1 c (List.mem_cons_of_mem _ hc)
      · intro c hc x hx
        rcases List.mem_cons.1 hc with rfl | hc
        · rw [headD_append_of_ne_nil hb]
          rcases List.mem_append.1 hx with hx | hx
          · exact h2 b (List.mem_cons_self _ _) x hx
          · rw [List.mem_singleton] at hx
            subst hx
            exact h.symm
        · exact h2 c (List.mem_cons_of_mem _ hc) x hx
      · simp only [List.map_cons]
        rw [headD_append_of_ne_nil hb]
        simpa only [List.map_cons] using h3
    · rw [if_neg h]
      have hplace := ih htail
      refine ⟨?_, ?_, ?_⟩
      · intro c hc
        rcases List.mem_cons.1 hc with rfl | hc
        · exact hb
        · exact hplace.1 c hc
      · intro c hc x hx
        rcases List.mem_cons.1 hc with rfl | hc
        · exact h2 _ (List.mem_cons_self _ _) x hx
        · exact hplace.2.1 c hc x hx
      · simp only [List.map_cons]
        rw [List.pairwise_cons]
        refine ⟨?_, hplace.2.2⟩
        intro y hy
        rcases sig_heads_place_mem g P rest s htail.1 y hy with hy2 | hy2
        · exact (List.pairwise_cons.1
            (by simpa only [List.map_cons] using h3)).1 y hy2
        · rw [hy2]
          exact h

theorem foldl_place_SubsInv (g : Graph) (P : Part) :
    ∀ (l : List Nat) (subs : List Block), SubsInv g P subs →
      SubsInv g P (l.foldl (placeState g P) subs) := by
  intro l
  induction l with
  | nil => intro subs h; simpa using h
  | cons s l ih =>
    intro subs h
    simp only [List.foldl_cons]
    exact ih _ (placeState_SubsInv g P subs s h)

theorem SubsInv_single (g : Graph) (P : Part) (s0 : Nat) :
    SubsInv g P [[s0]] := by
  refine ⟨by simp, ?_, by simp⟩
  intro c hc x hx
  simp only [List.mem_singleton] at hc
  subst hc
  simp only [List.mem_singleton] at hx
  subst hx
  rfl

theorem splitBlock_SubsInv (g : Graph) (P : Part) (b : Block)
    (hb : b ≠ []) : SubsInv g P (splitBlock g P b) := by
  match b, hb with
  | s0 :: rest, _ =>
    simp only [splitBlock]
    exact foldl_place_SubsInv g P rest [[s0]] (SubsInv_single g P s0)

theorem eq_of_map_pairwise_ne {α β : Type} {f : α → β} :
    ∀ {l : List α}, (l.map f).Pairwise (· ≠ ·) →
      ∀ {a b : α}, a ∈ l → b ∈ l → f a = f b → a = b := by
  intro l
  induction l with
  | nil => intro _ a b ha; simp at ha
  | cons x l ih =>
    intro hp a b ha hb hf
    rw [List.map_cons, List.pairwise_cons] at hp
    rcases List.mem_cons.1 ha with ha1 | ha1
    · rcases List.mem_cons.1 hb with hb1 | hb1
      · rw [ha1, hb1]
      · rw [ha1] at hf
        exact absurd hf (hp.1 _ (List.mem_map_of_mem f hb1))
    · rcases List.mem_cons.1 hb with hb1 | hb1
      · rw [hb1] at hf
        exact absurd hf.symm (hp.1 _ (List.mem_map_of_mem f ha1))
      · exact ih hp.2 ha1 hb1 hf

theorem splitBlock_same_sub (g : Graph) (P : Part) {b : Block} {x y : Nat}
    (hx : x ∈ b) (hy : y ∈ b) (hsig : sigOf g P x = sigOf g P y) :
    ∃ c ∈ splitBlock g P b, x ∈ c ∧ y ∈ c := by
  have hb : b ≠ [] := by
    intro h
    subst h
    simp at hx
  have hinv := splitBlock_SubsInv g P b hb
  have hperm := splitBlock_flatten_perm g P b hb
  obtain ⟨c1, hc1, hxc⟩ := List.mem_flatten.1 (hperm.mem_iff.2 hx)
  obtain ⟨c2, hc2, hyc⟩ := List.mem_flatten.1 (hperm.mem_iff.2 hy)
  have h1 : sigOf g P x = sigOf g P (c1.headD 0) := hinv.2.1 c1 hc1 x hxc
  have h2 : sigOf g P y = sigOf g P (c2.headD 0) := hinv.2.1 c2 hc2 y hyc
  have hceq : c1 = c2 :=
    eq_of_map_pairwise_ne hinv.2.2 hc1 hc2 (h1.symm.trans (hsig.trans h2))
  exact ⟨c1, hc1, hxc, hceq ▸ hyc⟩

theorem foldl_place_single (g : Graph) (P : Part) :
    ∀ (l : List Nat) (c : Block), c ≠ [] →
      (l.foldl (placeState g P) [c]).length = 1 →
      l.foldl (placeState g P) [c] = [c ++ l] := by
  intro l
  induction l with
  | nil =>
    intro c _ _
    rw [List.foldl_nil, List.append_nil]
  | cons s l ih =>
    intro c hc hlen
    rw [List.foldl_cons] at hlen ⊢
    by_cases h : sigOf g P (c.headD 0) = sigOf g P s
    · have hplace : placeState g P [c] s = [c ++ [s]] := by
        simp only [placeState]
        rw [if_pos h]
      rw [hplace] at hlen ⊢
      rw [ih (c ++ [s]) (by simp) hlen, List.append_assoc,
        List.singleton_append]
    · have hplace : placeState g P [c] s = [c, [s]] := by
        simp only [placeState]
        rw [if_neg h]
      rw [hplace] at hlen
      have hge := foldl_place_length_le g P l [c, [s]]
      simp only [List.length_cons, List.length_nil] at hge
      omega

theorem splitBlock_eq_of_len_one (g : Graph) (P : Part) {b : Block}
    (hb : b ≠ []) (h : (splitBlock g P b).length = 1) :
    splitBlock g P b = [b] := by
  match b, hb with
  | s0 :: rest, _ =>
    simp only [splitBlock] at h ⊢
    have hs := foldl_place_single g P rest [s0] (by simp) h
    rw [hs, List.singleton_append]

theorem length_le_flatten_length :
    ∀ (L : List Block), (∀ b ∈ L, b ≠ []) → L.length ≤ L.flatten.length := by
  intro L
  induction L with
  | nil => intro _; simp
  | cons b rest ih =>
    intro h
    have hb : 1 ≤ b.length := by
      have hb0 := h b (List.mem_cons_self _ _)
      cases b
      · simp at hb0
      · simp
    have hr := ih fun c hc => h c (List.mem_cons_of_mem _ hc)
    simp only [List.flatten_cons, List.length_cons, List.length_append]
    omega

theorem foldl_appendCapped_eq :
    ∀ (bs : List Block) (xs : List Block),
      xs.length + bs.length ≤ MAX_STATES →
      bs.foldl appendCapped xs = xs ++ bs := by
  intro bs
  induction bs with
  | nil => intro xs _; simp
  | cons b bs ih =>
    intro xs h
    simp only [List.length_cons] at h
    have hx : xs.length < MAX_STATES := by omega
    have happ : appendCapped xs b = xs ++ [b] := by
      unfold appendCapped
      rw [if_pos hx]
    rw [List.foldl_cons, happ, ih (xs ++ [b]) (by simp; omega),
      List.append_assoc, List.singleton_append]

theorem passOne_foldl_eq (g : Graph) (P : Part) :
    ∀ (L : List Block) (acc : List Block × Bool),
      (∀ c ∈ acc.1, c ≠ []) → (∀ b ∈ L, b ≠ []) →
      acc.1.flatten.length + L.flatten.length ≤ MAX_STATES →
      L.foldl (passOneStep g P) acc =
        (acc.1 ++ L.flatMap (blockRefine g P),
         acc.2 || L.any fun b => decide (1 < b.length) &&
           decide (1 < (splitBlock g P b).length)) := by
  intro L
  induction L with
  | nil =>
    intro acc _ _ _
    simp
  | cons b L ih =>
    intro acc hacc hL hlen
    have hb : b ≠ [] := hL b (List.mem_cons_self _ _)
    have hb1 : 1 ≤ b.length := by
      cases b
      · simp at hb
      · simp
    have hacclen : acc.1.length ≤ acc.1.flatten.length :=
      length_le_flatten_length acc.1 hacc
    simp only [List.flatten_cons, List.length_append] at hlen
    rw [List.foldl_cons]
    by_cases hble : b.length ≤ 1
    · have hstep : passOneStep g P acc b = (acc.1 ++ [b], acc.2) := by
        unfold passOneStep
        rw [if_pos hble, if_pos (by omega)]
        unfold appendCapped
        rw [if_pos (by omega)]
      rw [hstep]
      rw [ih (acc.1 ++ [b], acc.2)
        (by
          intro c hc
          rcases List.mem_append.1 hc with hc | hc
          · exact hacc c hc
          · rw [List.mem_singleton] at hc
            subst hc
            exact hb)
        (fun c hc => hL c (List.mem_cons_of_mem _ hc))
        (by
          simp only [List.flatten_append, List.flatten_cons,
            List.flatten_nil, List.append_nil, List.length_append]
          omega)]
      have hbr : blockRefine g P b = [b] := by
        unfold blockRefine
        rw [if_pos hble]
      rw [List.flatMap_cons, hbr]
      have hpred : (decide (1 < b.length) &&
          decide (1 < (splitBlock g P b).length)) = false := by
        have : ¬ (1 < b.length) := by omega
        simp [this]
      rw [List.any_cons, hpred]
      simp [List.append_assoc]
    · have hsne := splitBlock_ne_nil g P b
      have hsperm := splitBlock_flatten_perm g P b hb
      have hslen : (splitBlock g P b).flatten.length = b.length :=
        hsperm.length_eq
      have hsublen : (splitBlock g P b).length ≤ b.length := by
        have := length_le_flatten_length (splitBlock g P b) hsne
        omega
      have hstep : passOneStep g P acc b =
          ((splitBlock g P b).foldl appendCapped acc.1,
           acc.2 || decide (1 < (splitBlock g P b).length)) := by
        unfold passOneStep
        rw [if_neg hble]
      rw [hstep, foldl_appendCapped_eq _ _ (by omega)]
      rw [ih (acc.1 ++ splitBlock g P b,
            acc.2 || decide (1 < (splitBlock g P b).length))
        (by
          intro c hc
          rcases List.mem_append.1 hc with hc | hc
          · exact hacc c hc
          · exact hsne c hc)
        (fun c hc => hL c (List.mem_cons_of_mem _ hc))
        (by
          simp only [List.flatten_append, List.length_append, hslen]
          omega)]
      have hbr : blockRefine g P b = splitBlock g P b := by
        unfold blockRefine
        rw [if_neg hble]
      have hpred : (decide (1 < b.length) &&
          decide (1 < (splitBlock g P b).length)) =
          decide (1 < (splitBlock g P b).length) := by
        have : 1 < b.length := by omega
        simp [this]
      rw [List.flatMap_cons, hbr, List.any_cons, hpred]
      simp [List.append_assoc, Bool.or_assoc]

theorem passOne_eq (g : Graph) (P : Part)
    (hne : ∀ b ∈ P, b ≠ []) (hlen : P.flatten.length ≤ MAX_STATES) :
    passOne g P = (passOneU g P, changedU g P) := by
  unfold passOne passOneU changedU
  have h := passOne_foldl_eq g P P ([], false) (by simp) hne
    (by simpa using hlen)
  simpa using h

theorem splitBlock_subset (g : Graph) (P : Part) {b c : Block}
    (hb : b ≠ []) (hc : c ∈ splitBlock g P b) : ∀ x ∈ c, x ∈ b := by
  intro x hx
  exact (splitBlock_flatten_perm g P b hb).mem_iff.1
    (List.mem_flatten.2 ⟨c, hc, hx⟩)

theorem mem_foldl_appendCapped :
    ∀ (bs : List Block) (xs : List Block) (c : Block),
      c ∈ bs.foldl appendCapped xs → c ∈ xs ∨ c ∈ bs := by
  intro bs
  induction bs with
  | nil => intro xs c hc; exact Or.inl hc
  | cons b bs ih =>
    intro xs c hc
    rw [List.foldl_cons] at hc
    rcases ih (appendCapped xs b) c hc with hc2 | hc2
    · unfold appendCapped at hc2
      by_cases hl : xs.length < MAX_STATES
      · rw [if_pos hl] at hc2
        rcases List.mem_append.1 hc2 with hc3 | hc3
        · exact Or.inl hc3
        · rw [List.mem_singleton] at hc3
          subst hc3
          exact Or.inr (List.mem_cons_self _ _)
      · rw [if_neg hl] at hc2
        exact Or.inl hc2
    · exact Or.inr (List.mem_cons_of_mem _ hc2)

theorem passOne_mem_subset (g : Graph) (P : Part) :
    ∀ c ∈ (passOne g P).1, ∃ b ∈ P, (∀ x ∈ c, x ∈ b) ∧ c ≠ [] := by
  have key : ∀ (L : List Block) (acc : List Block × Bool),
      (∀ b ∈ L, b ∈ P) →
      (∀ c ∈ acc.1, ∃ b ∈ P, (∀ x ∈ c, x ∈ b) ∧ c ≠ []) →
      ∀ c ∈ (L.foldl (passOneStep g P) acc).1,
        ∃ b ∈ P, (∀ x ∈ c, x ∈ b) ∧ c ≠ [] := by
    intro L
    induction L with
    | nil => intro acc _ hacc c hc; exact hacc c hc
    | cons b L ih =>
      intro acc hL hacc c hc
      rw [List.foldl_cons] at hc
      refine ih (passOneStep g P acc b)
        (fun d hd => hL d (List.mem_cons_of_mem _ hd)) ?_ c hc
      intro d hd
      unfold passOneStep at hd
      by_cases hble : b.length ≤ 1
      · rw [if_pos hble] at hd
        by_cases hpos : 0 < b.length
        · rw [if_pos hpos] at hd
          unfold appendCapped at hd
          by_cases hl : acc.1.length < MAX_STATES
          · rw [if_pos hl] at hd
            rcases List.mem_append.1 hd with hd2 | hd2
            · exact hacc d hd2
            · rw [List.mem_singleton] at hd2
              subst hd2
              refine ⟨d, hL d (List.mem_cons_self _ _), fun x hx => hx, ?_⟩
              intro hnil
              rw [hnil] at hpos
              simp at hpos
          · rw [if_neg hl] at hd
            exact hacc d hd
        · rw [if_neg hpos] at hd
          exact hacc d hd
      · rw [if_neg hble] at hd
        rcases mem_foldl_appendCapped _ _ _ hd with hd2 | hd2
        · exact hacc d hd2
        · have hbne : b ≠ [] := by
            intro hnil
            rw [hnil] at hble
            simp at hble
          exact ⟨b, hL b (List.mem_cons_self _ _),
            splitBlock_subset g P hbne hd2, splitBlock_ne_nil g P b d hd2⟩
  intro c hc
  exact key P ([], false) (fun b hb => hb) (by simp) c hc

theorem agreeFinal_initial (g : Graph) : AgreeFinal g (initialPartition g) := by
  intro b hb s hs t ht
  unfold initialPartition at hb
  rcases List.mem_append.1 hb with hb2 | hb2
  · by_cases he : ((List.range g.length).filter
        fun i => (stateAt g i).isFinal).isEmpty
    · rw [if_pos he] at hb2
      simp at hb2
    · rw [if_neg he] at hb2
      rw [List.mem_singleton] at hb2
      subst hb2
      have h1 := (List.mem_filter.1 hs).2
      have h2 := (List.mem_filter.1 ht).2
      simp only [decide_eq_true_eq] at h1 h2
      rw [h1, h2]
  · by_cases he : ((List.range g.length).filter
        fun i => !(stateAt g i).isFinal).isEmpty
    · rw [if_pos he] at hb2
      simp at hb2
    · rw [if_neg he] at hb2
      rw [List.mem_singleton] at hb2
      subst hb2
      have h1 := (List.mem_filter.1 hs).2
      have h2 := (List.mem_filter.1 ht).2
      simp only [Bool.not_eq_true'] at h1 h2
      rw [h1, h2]

theorem agreeFinal_passOne (g : Graph) (P : Part) (h : AgreeFinal g P) :
    AgreeFinal g (passOne g P).1 := by
  intro c hc s hs t ht
  obtain ⟨b, hb, hsub, _⟩ := passOne_mem_subset g P c hc
  exact h b hb s (hsub s hs) t (hsub t ht)

theorem agreeFinal_refineStep (g : Graph) (P : Part) (h : AgreeFinal g P) :
    AgreeFinal g (refineStep g P).1 := by
  unfold refineStep
  by_cases hc : ((passOne g P).2 ||
      decide ((passOne g P).1.length ≠ P.length)) = true
  · simp only [hc, if_true]
    exact agreeFinal_passOne g P h
  · simp only [hc, if_false]
    exact h

theorem agreeFinal_refineLoop (g : Graph) :
    ∀ (fuel : Nat) (P : Part), AgreeFinal g P →
      AgreeFinal g (refineLoop g P fuel) := by
  intro fuel
  induction fuel with
  | zero => intro P h; exact h
  | succ fuel ih =>
    intro P h
    simp only [refineLoop]
    by_cases hc : (refineStep g P).2 = true
    · simp only [hc, if_true]
      exact ih _ (agreeFinal_refineStep g P h)
    · simp only [hc, if_false]
      exact agreeFinal_refineStep g P h

theorem flatMap_blockRefine_flatten_perm (g : Graph) (P : Part) :
    ∀ (L : List Block), (∀ b ∈ L, b ≠ []) →
      ((L.flatMap (blockRefine g P)).flatten).Perm L.flatten := by
  intro L
  induction L with
  | nil => intro _; simp
  | cons b L ih =>
    intro hne
    have hb : b ≠ [] := hne b (List.mem_cons_self _ _)
    rw [List.flatMap_cons, List.flatten_append, List.flatten_cons]
    refine List.Perm.append ?_ (ih fun c hc => hne c (List.mem_cons_of_mem _ hc))
    unfold blockRefine
    by_cases hble : b.length ≤ 1
    · rw [if_pos hble]
      simp
    · rw [if_neg hble]
      exact splitBlock_flatten_perm g P b hb

theorem flatMap_blockRefine_length_ge (g : Graph) (P : Part) :
    ∀ (L : List Block), (∀ b ∈ L, b ≠ []) →
      L.length ≤ (L.flatMap (blockRefine g P)).length := by
  intro L
  induction L with
  | nil => intro _; simp
  | cons b L ih =>
    intro hne
    have hb : b ≠ [] := hne b (List.mem_cons_self _ _)
    rw [List.flatMap_cons, List.length_append, List.length_cons]
    have h1 : 1 ≤ (blockRefine g P b).length := by
      unfold blockRefine
      by_cases hble : b.length ≤ 1
      · rw [if_pos hble]
        simp
      · rw [if_neg hble]
        exact splitBlock_length_pos g P b hb
    have h2 := ih fun c hc => hne c (List.mem_cons_of_mem _ hc)
    omega

theorem flatMap_blockRefine_length_gt (g : Graph) (P : Part) :
    ∀ (L : List Block), (∀ b ∈ L, b ≠ []) →
      (L.any fun b => decide (1 < b.length) &&
        decide (1 < (splitBlock g P b).length)) = true →
      L.length < (L.flatMap (blockRefine g P)).length := by
  intro L
  induction L with
  | nil => intro _ h; simp at h
  | cons b L ih =>
    intro hne hany
    have hb : b ≠ [] := hne b (List.mem_cons_self _ _)
    rw [List.any_cons, Bool.or_eq_true] at hany
    rw [List.flatMap_cons, List.length_append, List.length_cons]
    rcases hany with hpred | hrest
    · rw [Bool.and_eq_true, decide_eq_true_eq, decide_eq_true_eq] at hpred
      have hbr : blockRefine g P b = splitBlock g P b := by
        unfold blockRefine
        rw [if_neg (by omega)]
      have h2 := flatMap_blockRefine_length_ge g P L
        fun c hc => hne c (List.mem_cons_of_mem _ hc)
      rw [hbr]
      omega
    · have h1 : 1 ≤ (blockRefine g P b).length := by
        unfold blockRefine
        by_cases hble : b.length ≤ 1
        · rw [if_pos hble]
          simp
        · rw [if_neg hble]
          exact splitBlock_length_pos g P b hb
      have h2 := ih (fun c hc => hne c (List.mem_cons_of_mem _ hc)) hrest
      omega

theorem flatMap_blockRefine_eq_self (g : Graph) (P : Part) :
    ∀ (L : List Block), (∀ b ∈ L, b ≠ []) →
      (L.any fun b => decide (1 < b.length) &&
        decide (1 < (splitBlock g P b).length)) = false →
      L.flatMap (blockRefine g P) = L := by
  intro L
  induction L with
  | nil => intro _ _; simp
  | cons b L ih =>
    intro hne hany
    have hb : b ≠ [] := hne b (List.mem_cons_self _ _)
    rw [List.any_cons, Bool.or_eq_false_iff] at hany
    have hbr : blockRefine g P b = [b] := by
      unfold blockRefine
      by_cases hble : b.length ≤ 1
      · rw [if_pos hble]
      · rw [if_neg hble]
        have hsplit1 : (splitBlock g P b).length = 1 := by
          have hpos := splitBlock_length_pos g P b hb
          have hand := hany.1
          rw [Bool.and_eq_false_iff] at hand
          rcases hand with hand | hand
          · rw [decide_eq_false_iff_not] at hand
            omega
          · rw [decide_eq_false_iff_not] at hand
            omega
        exact splitBlock_eq_of_len_one g P hb hsplit1
    rw [List.flatMap_cons, hbr,
      ih (fun c hc => hne c (List.mem_cons_of_mem _ hc)) hany.2,
      List.singleton_append]

theorem validPart_length_le {g : Graph} {P : Part} (h : ValidPart g P) :
    P.length ≤ g.length := by
  have h1 := length_le_flatten_length P h.2
  have h2 := h.1.length_eq
  rw [List.length_range] at h2
  omega

theorem validPart_passOneU {g : Graph} {P : Part} (h : ValidPart g P) :
    ValidPart g (passOneU g P) := by
  constructor
  · exact (flatMap_blockRefine_flatten_perm g P P h.2).trans h.1
  · intro c hc
    unfold passOneU at hc
    rw [List.mem_flatMap] at hc
    obtain ⟨b, hb, hcb⟩ := hc
    unfold blockRefine at hcb
    by_cases hble : b.length ≤ 1
    · rw [if_pos hble, List.mem_singleton] at hcb
      subst hcb
      exact h.2 _ hb
    · rw [if_neg hble] at hcb
      exact splitBlock_ne_nil g P b c hcb

theorem passOneU_length_ge {g : Graph} {P : Part} (h : ValidPart g P) :
    P.length ≤ (passOneU g P).length :=
  flatMap_blockRefine_length_ge g P P h.2

theorem passOneU_length_gt {g : Graph} {P : Part} (h : ValidPart g P)
    (hch : changedU g P = true) : P.length < (passOneU g P).length :=
  flatMap_blockRefine_length_gt g P P h.2 hch

theorem passOneU_eq_self {g : Graph} {P : Part} (h : ValidPart g P)
    (hch : changedU g P = false) : passOneU g P = P :=
  flatMap_blockRefine_eq_self g P P h.2 hch

theorem refineStep_eq {g : Graph} {P : Part} (h : ValidPart g P)
    (h64 : g.length ≤ MAX_STATES) :
    refineStep g P =
      (if changedU g P then passOneU g P else P, changedU g P) := by
  have hflat : P.flatten.length ≤ MAX_STATES := by
    have hl := h.1.length_eq
    rw [List.length_range] at hl
    omega
  unfold refineStep
  rw [passOne_eq g P h.2 hflat]
  by_cases hch : changedU g P = true
  · simp [hch]
  · have hch2 : changedU g P = false := by
      cases hq : changedU g P
      · rfl
      · exact absurd hq hch
    have heq2 : passOneU g P = P := passOneU_eq_self h hch2
    simp [hch2, heq2]

theorem validPart_initial (g : Graph) : ValidPart g (initialPartition g) := by
  have hperm := List.filter_append_perm
    (fun i => (stateAt g i).isFinal) (List.range g.length)
  constructor
  · simp only [initialPartition]
    by_cases h1 : ((List.range g.length).filter
        fun i => (stateAt g i).isFinal).isEmpty
    · rw [if_pos h1]
      have h1e := List.isEmpty_iff.1 h1
      by_cases h2 : ((List.range g.length).filter
          fun i => !(stateAt g i).isFinal).isEmpty
      · rw [if_pos h2]
        have h2e := List.isEmpty_iff.1 h2
        rw [h1e, h2e] at hperm
        simpa using hperm
      · rw [if_neg h2]
        rw [h1e] at hperm
        simpa using hperm
    · rw [if_neg h1]
      by_cases h2 : ((List.range g.length).filter
          fun i => !(stateAt g i).isFinal).isEmpty
      · rw [if_pos h2]
        have h2e := List.isEmpty_iff.1 h2
        rw [h2e] at hperm
        simpa using hperm
      · rw [if_neg h2]
        simpa using hperm
  · intro b hb
    simp only [initialPartition] at hb
    rcases List.mem_append.1 hb with hb2 | hb2
    · by_cases h1 : ((List.range g.length).filter
          fun i => (stateAt g i).isFinal).isEmpty
      · rw [if_pos h1] at hb2
        simp at hb2
      · rw [if_neg h1, List.mem_singleton] at hb2
        subst hb2
        intro hnil
        rw [hnil] at h1
        simp at h1
    · by_cases h2 : ((List.range g.length).filter
          fun i => !(stateAt g i).isFinal).isEmpty
      · rw [if_pos h2] at hb2
        simp at hb2
      · rw [if_neg h2, List.mem_singleton] at hb2
        subst hb2
        intro hnil
        rw [hnil] at h2
        simp at h2

theorem refineLoop_fix (g : Graph) (h64 : g.length ≤ MAX_STATES) :
    ∀ (fuel : Nat) (P : Part), ValidPart g P →
      g.length + 1 ≤ fuel + P.length →
      ValidPart g (refineLoop g P fuel) ∧
        refineStep g (refineLoop g P fuel) = (refineLoop g P fuel, false) := by
  intro fuel
  induction fuel with
  | zero =>
    intro P hv hle
    have hlen := validPart_length_le hv
    exact absurd hle (by omega)
  | succ fuel ih =>
    intro P hv hle
    have hstep := refineStep_eq hv h64
    simp only [refineLoop]
    by_cases hch : changedU g P = true
    · rw [hstep]
      simp only [hch, if_true]
      have hgt := passOneU_length_gt hv hch
      exact ih (passOneU g P) (validPart_passOneU hv) (by omega)
    · have hch2 : changedU g P = false := by
        cases hq : changedU g P
        · rfl
        · exact absurd hq hch
      rw [hstep]
      simp only [hch2, if_false, Bool.false_eq_true]
      rw [hstep]
      simp [hch2]
      exact hv

theorem stateAt_mem {g : Graph} {i : Nat} (h : i < g.length) :
    stateAt g i ∈ g := by
  unfold stateAt
  rw [getD_eq_getElem_of_lt _ _ h]
  exact List.getElem_mem _

theorem wf_nxt {g : Graph} (hwf : WF g) {i : Nat} (hi : i < g.length)
    (sym : Fin 2) {u : Nat} (h : nxt (stateAt g i) sym = some u) :
    u < g.length := by
  have hmem := stateAt_mem hi
  fin_cases sym
  · have hok := (hwf _ hmem).1
    have h0 : (stateAt g i).next0 = some u := h
    rw [h0] at hok
    exact hok
  · have hok := (hwf _ hmem).2
    have h0 : (stateAt g i).next1 = some u := h
    rw [h0] at hok
    exact hok

theorem pidOf_nonneg_of_mem :
    ∀ (P : Part) (s : Nat), (∃ b ∈ P, s ∈ b) → 0 ≤ pidOf P s := by
  intro P
  induction P with
  | nil => intro s hs; simp at hs
  | cons b rest ih =>
    intro s hs
    simp only [pidOf]
    by_cases hsb : s ∈ b
    · rw [if_pos hsb]
    · rw [if_neg hsb]
      obtain ⟨c, hc, hsc⟩ := hs
      rcases List.mem_cons.1 hc with rfl | hc
      · exact absurd hsc hsb
      · have hr := ih s ⟨c, hc, hsc⟩
        rw [if_neg (by omega)]
        omega

theorem sameBlock_of_pidOf_eq :
    ∀ (P : Part) {s t : Nat}, (∃ b ∈ P, s ∈ b) → (∃ b ∈ P, t ∈ b) →
      pidOf P s = pidOf P t → sameBlock P s t := by
  intro P
  induction P with
  | nil => intro s t hs _ _; simp at hs
  | cons b rest ih =>
    intro s t hs ht heq
    simp only [pidOf] at heq
    have hsr : s ∉ b → ∃ c ∈ rest, s ∈ c := by
      intro hsb
      obtain ⟨c, hc, hsc⟩ := hs
      rcases List.mem_cons.1 hc with rfl | hc
      · exact absurd hsc hsb
      · exact ⟨c, hc, hsc⟩
    have htr : t ∉ b → ∃ c ∈ rest, t ∈ c := by
      intro htb
      obtain ⟨c, hc, htc⟩ := ht
      rcases List.mem_cons.1 hc with rfl | hc
      · exact absurd htc htb
      · exact ⟨c, hc, htc⟩
    by_cases hsb : s ∈ b
    · by_cases htb : t ∈ b
      · exact ⟨b, List.mem_cons_self _ _, hsb, htb⟩
      · rw [if_pos hsb, if_neg htb] at heq
        have h0 := pidOf_nonneg_of_mem rest t (htr htb)
        rw [if_neg (by omega)] at heq
        exact absurd heq (by omega)
    · by_cases htb : t ∈ b
      · rw [if_neg hsb, if_pos htb] at heq
        have h0 := pidOf_nonneg_of_mem rest s (hsr hsb)
        rw [if_neg (by omega)] at heq
        exact absurd heq (by omega)
      · rw [if_neg hsb, if_neg htb] at heq
        have hs0 := pidOf_nonneg_of_mem rest s (hsr hsb)
        have ht0 := pidOf_nonneg_of_mem rest t (htr htb)
        rw [if_neg (by omega), if_neg (by omega)] at heq
        obtain ⟨c, hc, h1, h2⟩ := ih (hsr hsb) (htr htb) (by omega)
        exact ⟨c, List.mem_cons_of_mem _ hc, h1, h2⟩

theorem pidOf_eq_of_mem_same :
    ∀ (P : Part) {b : Block} {s t : Nat}, P.flatten.Nodup → b ∈ P →
      s ∈ b → t ∈ b → pidOf P s = pidOf P t := by
  intro P
  induction P with
  | nil => intro b s t _ hb; simp at hb
  | cons b0 rest ih =>
    intro b s t hnd hb hs ht
    rw [List.flatten_cons] at hnd
    obtain ⟨_, hnd2, hdisj⟩ := List.nodup_append.1 hnd
    rcases List.mem_cons.1 hb with rfl | hb
    · simp only [pidOf]
      rw [if_pos hs, if_pos ht]
    · have hs2 : s ∈ rest.flatten := List.mem_flatten.2 ⟨b, hb, hs⟩
      have ht2 : t ∈ rest.flatten := List.mem_flatten.2 ⟨b, hb, ht⟩
      have hsb0 : s ∉ b0 := fun hx => hdisj hx hs2
      have htb0 : t ∉ b0 := fun hx => hdisj hx ht2
      simp only [pidOf]
      rw [if_neg hsb0, if_neg htb0, ih hnd2 hb hs ht]

theorem validPart_flatten_nodup {g : Graph} {P : Part}
    (hv : ValidPart g P) : P.flatten.Nodup :=
  (hv.1.nodup_iff).2 (List.nodup_range _)

theorem pidOf_eq_of_sameBlock {g : Graph} {P : Part} (hv : ValidPart g P)
    {s t : Nat} (h : sameBlock P s t) : pidOf P s = pidOf P t := by
  obtain ⟨b, hb, hs, ht⟩ := h
  exact pidOf_eq_of_mem_same P (validPart_flatten_nodup hv) hb hs ht

theorem exists_block_of_lt {g : Graph} {P : Part} (hv : ValidPart g P)
    {s : Nat} (hs : s < g.length) : ∃ b ∈ P, s ∈ b := by
  have hmem : s ∈ P.flatten := hv.1.mem_iff.2 (List.mem_range.2 hs)
  exact List.mem_flatten.1 hmem

theorem mem_lt_of_validPart {g : Graph} {P : Part} (hv : ValidPart g P)
    {b : Block} {s : Nat} (hb : b ∈ P) (hs : s ∈ b) : s < g.length := by
  have hmem : s ∈ P.flatten := List.mem_flatten.2 ⟨b, hb, hs⟩
  exact List.mem_range.1 (hv.1.mem_iff.1 hmem)

theorem sig_eq_dichotomy {g : Graph} {P : Part} (hv : ValidPart g P)
    (hwf : WF g) {s t : Nat} (hs : s < g.length) (ht : t < g.length)
    (hsig : sigOf g P s = sigOf g P t) (sym : Fin 2) :
    (nxt (stateAt g s) sym = none ∧ nxt (stateAt g t) sym = none) ∨
    (∃ u v, nxt (stateAt g s) sym = some u ∧ nxt (stateAt g t) sym = some v ∧
      sameBlock P u v) := by
  have hcomp : (match nxt (stateAt g s) sym with
      | none => (-2 : Int) | some u => pidOf P u) =
      (match nxt (stateAt g t) sym with
      | none => (-2 : Int) | some u => pidOf P u) := by
    fin_cases sym
    · exact congrArg Prod.fst hsig
    · exact congrArg Prod.snd hsig
  cases hns : nxt (stateAt g s) sym with
  | none =>
    cases hnt : nxt (stateAt g t) sym with
    | none => exact Or.inl ⟨rfl, rfl⟩
    | some v =>
      rw [hns, hnt] at hcomp
      have hvlt := wf_nxt hwf ht sym hnt
      have h0 := pidOf_nonneg_of_mem P v (exists_block_of_lt hv hvlt)
      have hcomp2 : (-2 : Int) = pidOf P v := hcomp
      exact absurd hcomp2 (by omega)
  | some u =>
    cases hnt : nxt (stateAt g t) sym with
    | none =>
      rw [hns, hnt] at hcomp
      have hult := wf_nxt hwf hs sym hns
      have h0 := pidOf_nonneg_of_mem P u (exists_block_of_lt hv hult)
      have hcomp2 : pidOf P u = (-2 : Int) := hcomp
      exact absurd hcomp2 (by omega)
    | some v =>
      rw [hns, hnt] at hcomp
      have hult := wf_nxt hwf hs sym hns
      have hvlt := wf_nxt hwf ht sym hnt
      refine Or.inr ⟨u, v, rfl, rfl, ?_⟩
      have hcomp2 : pidOf P u = pidOf P v := hcomp
      exact sameBlock_of_pidOf_eq P (exists_block_of_lt hv hult)
        (exists_block_of_lt hv hvlt) hcomp2

theorem changedU_false_stable {g : Graph} {P : Part}
    (hv : ValidPart g P) (hch : changedU g P = false) :
    ∀ b ∈ P, ∀ s ∈ b, ∀ t ∈ b, sigOf g P s = sigOf g P t := by
  intro b hb s hs t ht
  unfold changedU at hch
  rw [List.any_eq_false] at hch
  have hpred := hch b hb
  simp only [Bool.and_eq_true, decide_eq_true_eq, not_and] at hpred
  by_cases hble : b.length ≤ 1
  · cases b with
    | nil => exact absurd rfl (hv.2 _ hb)
    | cons x rest =>
      cases rest with
      | nil =>
        rw [List.mem_singleton] at hs ht
        rw [hs, ht]
      | cons y rest2 => simp at hble
  · have hbne := hv.2 b hb
    have hge := splitBlock_length_pos g P b hbne
    have hle2 : ¬ 1 < (splitBlock g P b).length := hpred (by omega)
    have hlen1 : (splitBlock g P b).length = 1 := by omega
    have hinv := splitBlock_SubsInv g P b hbne
    have hsplit := splitBlock_eq_of_len_one g P hbne hlen1
    have hbmem : b ∈ splitBlock g P b := by
      rw [hsplit]
      exact List.mem_singleton.2 rfl
    have h1 := hinv.2.1 b hbmem s hs
    have h2 := hinv.2.1 b hbmem t ht
    rw [h1, h2]

theorem refineAll_valid_fix (g : Graph) (h64 : g.length ≤ MAX_STATES) :
    ValidPart g (refineAllPartitions g) ∧
      changedU g (refineAllPartitions g) = false := by
  have hinit := validPart_initial g
  have hfix := refineLoop_fix g h64 (g.length + 1) (initialPartition g) hinit
    (by omega)
  refine ⟨hfix.1, ?_⟩
  have h1 := refineStep_eq hfix.1 h64
  rw [hfix.2] at h1
  exact (congrArg Prod.snd h1).symm

/-- C6: at the fixpoint of `refineAllPartitions`, any two states of a common
partition agree, on every alphabet symbol, either in both lacking the
transition or in having transition targets that lie in a common
partition. -/
theorem C6_fixpoint_stability (g : Graph) (hwf : WF g)
    (h64 : g.length ≤ MAX_STATES) (b : Block)
    (hb : b ∈ refineAllPartitions g) (s t : Nat) (hs : s ∈ b) (ht : t ∈ b)
    (sym : Fin 2) :
    (nxt (stateAt g s) sym = none ∧ nxt (stateAt g t) sym = none) ∨
    (∃ u v, nxt (stateAt g s) sym = some u ∧ nxt (stateAt g t) sym = some v ∧
      sameBlock (refineAllPartitions g) u v) := by
  obtain ⟨hv, hch⟩ := refineAll_valid_fix g h64
  have hsig := changedU_false_stable hv hch b hb s hs t ht
  exact sig_eq_dichotomy hv hwf (mem_lt_of_validPart hv hb hs)
    (mem_lt_of_validPart hv hb ht) hsig sym

theorem C6_fixpoint_stability_witness :
    (nxt (stateAt gB 1) 0 = none ∧ nxt (stateAt gB 1) 0 = none) ∨
    (∃ u v, nxt (stateAt gB 1) 0 = some u ∧ nxt (stateAt gB 1) 0 = some v ∧
      sameBlock (refineAllPartitions gB) u v) :=
  C6_fixpoint_stability gB (by decide) (by decide) [1] (by decide) 1 1
    (by decide) (by decide) 0

theorem refineLoop_nil (g : Graph) : ∀ fuel, refineLoop g [] fuel = [] := by
  intro fuel
  have hstep : refineStep g [] = ([], false) := rfl
  cases fuel with
  | zero => rfl
  | succ fuel =>
    simp only [refineLoop, hstep]
    rfl

theorem refineLoop_eq_of_fuel (g : Graph) (h64 : g.length ≤ MAX_STATES) :
    ∀ (f1 : Nat) (P : Part) (f2 : Nat), ValidPart g P →
      g.length + 1 ≤ f1 + P.length → g.length + 1 ≤ f2 + P.length →
      refineLoop g P f1 = refineLoop g P f2 := by
  intro f1
  induction f1 with
  | zero =>
    intro P f2 hv h1 _
    have hlen := validPart_length_le hv
    exact absurd h1 (by omega)
  | succ f1 ih =>
    intro P f2 hv h1 h2
    cases f2 with
    | zero =>
      have hlen := validPart_length_le hv
      exact absurd h2 (by omega)
    | succ f2 =>
      have hstep := refineStep_eq hv h64
      simp only [refineLoop, hstep]
      by_cases hch : changedU g P = true
      · simp only [hch, if_true]
        have hgt := passOneU_length_gt hv hch
        exact ih (passOneU g P) f2 (validPart_passOneU hv) (by omega)
          (by omega)
      · have hch2 : changedU g P = false := by
          cases hq : changedU g P
          · rfl
          · exact absurd hq hch
        simp [hch2]

theorem initialPartition_length_pos (g : Graph) (h : 0 < g.length) :
    1 ≤ (initialPartition g).length := by
  simp only [initialPartition]
  by_cases hf : (stateAt g 0).isFinal
  · have hmem : 0 ∈ (List.range g.length).filter
        fun i => (stateAt g i).isFinal := by
      rw [List.mem_filter]
      exact ⟨List.mem_range.2 h, by simpa using hf⟩
    have hne : ¬ ((List.range g.length).filter
        fun i => (stateAt g i).isFinal).isEmpty = true := by
      intro he
      rw [List.isEmpty_iff.1 he] at hmem
      simp at hmem
    rw [if_neg hne]
    simp
  · have hmem : 0 ∈ (List.range g.length).filter
        fun i => !(stateAt g i).isFinal := by
      rw [List.mem_filter]
      exact ⟨List.mem_range.2 h, by simpa using hf⟩
    have hne : ¬ ((List.range g.length).filter
        fun i => !(stateAt g i).isFinal).isEmpty = true := by
      intro he
      rw [List.isEmpty_iff.1 he] at hmem
      simp at hmem
    rw [if_neg hne]
    simp

/-- C7: under the run-time invariant (a genuine partition of at most
`MAX_STATES` states), one committed pass never decreases the partition count
and the count stays bounded by the number of (reachable) states; moreover
`length g` passes always suffice: giving the loop any fuel of at least
`length g` produces the very same fixpoint, so `refineAllPartitions`
performs at most `|states|` passes and always terminates. -/
theorem C7_monotone_terminating (g : Graph) (h64 : g.length ≤ MAX_STATES) :
    (∀ P : Part, ValidPart g P →
      P.length ≤ (refineStep g P).1.length ∧
        (refineStep g P).1.length ≤ g.length) ∧
    (∀ fuel : Nat, g.length ≤ fuel →
      refineLoop g (initialPartition g) fuel = refineAllPartitions g) := by
  constructor
  · intro P hv
    rw [refineStep_eq hv h64]
    by_cases hch : changedU g P = true
    · simp only [hch, if_true]
      exact ⟨passOneU_length_ge hv, validPart_length_le
        (validPart_passOneU hv)⟩
    · have hch2 : changedU g P = false := by
        cases hq : changedU g P
        · rfl
        · exact absurd hq hch
      simp only [hch2, Bool.false_eq_true, if_false]
      exact ⟨le_refl _, validPart_length_le hv⟩
  · intro fuel hfuel
    unfold refineAllPartitions
    by_cases hzero : g.length = 0
    · have hinit : initialPartition g = [] := by
        simp only [initialPartition, hzero]
        simp
      rw [hinit, refineLoop_nil, refineLoop_nil]
    · have hpos := initialPartition_length_pos g (by omega)
      exact refineLoop_eq_of_fuel g h64 fuel (initialPartition g)
        (g.length + 1) (validPart_initial g) (by omega) (by omega)

theorem C7_monotone_terminating_witness :
    gEx2.length ≤ MAX_STATES ∧
      (ValidPart gEx2 (initialPartition gEx2) ∧
        (initialPartition gEx2).length ≤
          (refineStep gEx2 (initialPartition gEx2)).1.length) ∧
      refineLoop gEx2 (initialPartition gEx2) gEx2.length =
        refineAllPartitions gEx2 :=
  ⟨by decide,
    ⟨by decide,
      ((C7_monotone_terminating gEx2 (by decide)).1 (initialPartition gEx2)
        (by decide)).1⟩,
    (C7_monotone_terminating gEx2 (by decide)).2 gEx2.length (le_refl _)⟩

theorem headD_mem {b : Block} (hb : b ≠ []) (d : Nat) : b.headD d ∈ b := by
  cases b
  · exact absurd rfl hb
  · exact List.mem_cons_self _ _

/-- C8: after initial partitioning (fuel 0 of the loop) and after every
refinement pass (any fuel), all member states of any partition agree on the
accepting flag, so the minimized state built from a partition — whose flag
`printMinimizedDFA` reads off the representative member `states[0]` — is
accepting iff every one of its members is accepting. -/
theorem C8_accept_agreement (g : Graph) (fuel : Nat) (b : Block)
    (hb : b ∈ refineLoop g (initialPartition g) fuel) :
    (∀ s ∈ b, ∀ t ∈ b, (stateAt g s).isFinal = (stateAt g t).isFinal) ∧
    (b ≠ [] → ((stateAt g (b.headD 0)).isFinal = true ↔
      ∀ s ∈ b, (stateAt g s).isFinal = true)) := by
  have hagree := agreeFinal_refineLoop g fuel (initialPartition g)
    (agreeFinal_initial g)
  refine ⟨hagree b hb, ?_⟩
  intro hbne
  constructor
  · intro hh s hs
    rw [hagree b hb s hs (b.headD 0) (headD_mem hbne 0), hh]
  · intro hall
    exact hall _ (headD_mem hbne 0)

theorem C8_accept_agreement_witness :
    ([1, 2] ≠ ([] : Block)) ∧
      ((stateAt (removeUnreachable gEx2 0) (([1, 2] : Block).headD 0)).isFinal
          = true ↔
        ∀ s ∈ ([1, 2] : Block),
          (stateAt (removeUnreachable gEx2 0) s).isFinal = true) :=
  ⟨by decide,
    (C8_accept_agreement (removeUnreachable gEx2 0) 4 [1, 2]
      (by decide)).2 (by decide)⟩

theorem status_nil (g : Graph) (s : Nat) :
    status g s [] = some (stateAt g s).isFinal := rfl

theorem status_cons_none {g : Graph} {s : Nat} {sym : Fin 2}
    {w : List (Fin 2)} (h : nxt (stateAt g s) sym = none) :
    status g s (sym :: w) = none := by
  unfold status
  have hrun : run g s (sym :: w) = none := by
    show (match nxt (stateAt g s) sym with
      | none => none
      | some t => run g t w) = none
    rw [h]
  rw [hrun]
  rfl

theorem status_cons_some {g : Graph} {s u : Nat} {sym : Fin 2}
    {w : List (Fin 2)} (h : nxt (stateAt g s) sym = some u) :
    status g s (sym :: w) = status g u w := by
  unfold status
  have hrun : run g s (sym :: w) = run g u w := by
    show (match nxt (stateAt g s) sym with
      | none => none
      | some t => run g t w) = run g u w
    rw [h]
  rw [hrun]

theorem sameBlock_imp_statusEq (g : Graph) (hwf : WF g)
    (h64 : g.length ≤ MAX_STATES) :
    ∀ (w : List (Fin 2)) (s t : Nat),
      sameBlock (refineAllPartitions g) s t → status g s w = status g t w := by
  intro w
  induction w with
  | nil =>
    intro s t hsb
    obtain ⟨b, hb, hs, ht⟩ := hsb
    have hagree := agreeFinal_refineLoop g (g.length + 1)
      (initialPartition g) (agreeFinal_initial g)
    have hfin := hagree b hb s hs t ht
    rw [status_nil, status_nil, hfin]
  | cons sym w ih =>
    intro s t hsb
    obtain ⟨b, hb, hs, ht⟩ := hsb
    obtain ⟨hv, hch⟩ := refineAll_valid_fix g h64
    have hsig := changedU_false_stable hv hch b hb s hs t ht
    rcases sig_eq_dichotomy hv hwf (mem_lt_of_validPart hv hb hs)
        (mem_lt_of_validPart hv hb ht) hsig sym with
      ⟨h1, h2⟩ | ⟨u, v, h1, h2, hsb2⟩
    · rw [status_cons_none h1, status_cons_none h2]
    · rw [status_cons_some h1, status_cons_some h2]
      exact ih u v hsb2

theorem sat_initial (g : Graph) : Sat g (initialPartition g) := by
  intro s t hs ht hst
  have h0 := hst []
  rw [status_nil, status_nil] at h0
  have hfin : (stateAt g s).isFinal = (stateAt g t).isFinal :=
    Option.some.inj h0
  by_cases hf : (stateAt g s).isFinal = true
  · have hsm : s ∈ (List.range g.length).filter
        fun i => (stateAt g i).isFinal :=
      List.mem_filter.2 ⟨List.mem_range.2 hs, hf⟩
    have htm : t ∈ (List.range g.length).filter
        fun i => (stateAt g i).isFinal :=
      List.mem_filter.2 ⟨List.mem_range.2 ht, by rw [← hfin]; exact hf⟩
    have hne : ¬ ((List.range g.length).filter
        fun i => (stateAt g i).isFinal).isEmpty = true := by
      intro he
      rw [List.isEmpty_iff.1 he] at hsm
      simp at hsm
    refine ⟨_, ?_, hsm, htm⟩
    simp only [initialPartition]
    rw [if_neg hne]
    exact List.mem_append.2 (Or.inl (List.mem_singleton.2 rfl))
  · have hf2 : (stateAt g s).isFinal = false := by
      cases hq : (stateAt g s).isFinal
      · rfl
      · exact absurd hq hf
    have hsm : s ∈ (List.range g.length).filter
        fun i => !(stateAt g i).isFinal :=
      List.mem_filter.2 ⟨List.mem_range.2 hs, by simp [hf2]⟩
    have htm : t ∈ (List.range g.length).filter
        fun i => !(stateAt g i).isFinal :=
      List.mem_filter.2 ⟨List.mem_range.2 ht, by simp [← hfin, hf2]⟩
    have hne : ¬ ((List.range g.length).filter
        fun i => !(stateAt g i).isFinal).isEmpty = true := by
      intro he
      rw [List.isEmpty_iff.1 he] at hsm
      simp at hsm
    refine ⟨_, ?_, hsm, htm⟩
    simp only [initialPartition]
    rw [if_neg hne]
    exact List.mem_append.2 (Or.inr (List.mem_singleton.2 rfl))

theorem sig_eq_of_statusEq {g : Graph} {P : Part} (hv : ValidPart g P)
    (hwf : WF g) (hsat : Sat g P) {s t : Nat} (hs : s < g.length)
    (ht : t < g.length) (hst : statusEq g s t) :
    sigOf g P s = sigOf g P t := by
  have hcomp : ∀ sym : Fin 2,
      (match nxt (stateAt g s) sym with
       | none => (-2 : Int) | some u => pidOf P u) =
      (match nxt (stateAt g t) sym with
       | none => (-2 : Int) | some u => pidOf P u) := by
    intro sym
    cases hns : nxt (stateAt g s) sym with
    | none =>
      cases hnt : nxt (stateAt g t) sym with
      | none => rfl
      | some v =>
        have h1 := hst [sym]
        rw [status_cons_none hns, status_cons_some hnt, status_nil] at h1
        exact absurd h1 (by simp)
    | some u =>
      cases hnt : nxt (stateAt g t) sym with
      | none =>
        have h1 := hst [sym]
        rw [status_cons_some hns, status_cons_none hnt, status_nil] at h1
        exact absurd h1 (by simp)
      | some v =>
        have huv : statusEq g u v := by
          intro w
          have h1 := hst (sym :: w)
          rw [status_cons_some hns, status_cons_some hnt] at h1
          exact h1
        have hult := wf_nxt hwf hs sym hns
        have hvlt := wf_nxt hwf ht sym hnt
        have hsb := hsat u v hult hvlt huv
        exact pidOf_eq_of_sameBlock hv hsb
  have hA : (match (stateAt g s).next0 with
      | none => (-2 : Int) | some u => pidOf P u) =
      (match (stateAt g t).next0 with
      | none => (-2 : Int) | some u => pidOf P u) := hcomp 0
  have hB : (match (stateAt g s).next1 with
      | none => (-2 : Int) | some u => pidOf P u) =
      (match (stateAt g t).next1 with
      | none => (-2 : Int) | some u => pidOf P u) := hcomp 1
  unfold sigOf
  rw [hA, hB]

theorem sat_passOneU {g : Graph} {P : Part} (hv : ValidPart g P)
    (hwf : WF g) (hsat : Sat g P) : Sat g (passOneU g P) := by
  intro s t hs ht hst
  obtain ⟨b, hb, hsb, htb⟩ := hsat s t hs ht hst
  by_cases hble : b.length ≤ 1
  · refine ⟨b, ?_, hsb, htb⟩
    unfold passOneU
    rw [List.mem_flatMap]
    refine ⟨b, hb, ?_⟩
    unfold blockRefine
    rw [if_pos hble]
    simp
  · have hsig := sig_eq_of_statusEq hv hwf hsat hs ht hst
    obtain ⟨c, hc, hsc, htc⟩ := splitBlock_same_sub g P hsb htb hsig
    refine ⟨c, ?_, hsc, htc⟩
    unfold passOneU
    rw [List.mem_flatMap]
    refine ⟨b, hb, ?_⟩
    unfold blockRefine
    rw [if_neg hble]
    exact hc

theorem sat_refineLoop (g : Graph) (hwf : WF g)
    (h64 : g.length ≤ MAX_STATES) :
    ∀ (fuel : Nat) (P : Part), ValidPart g P → Sat g P →
      Sat g (refineLoop g P fuel) := by
  intro fuel
  induction fuel with
  | zero => intro P _ hsat; exact hsat
  | succ fuel ih =>
    intro P hv hsat
    have hstep := refineStep_eq hv h64
    simp only [refineLoop, hstep]
    by_cases hch : changedU g P = true
    · simp only [hch, if_true]
      exact ih _ (validPart_passOneU hv) (sat_passOneU hv hwf hsat)
    · have hch2 : changedU g P = false := by
        cases hq : changedU g P
        · rfl
        · exact absurd hq hch
      simp only [hch2, Bool.false_eq_true, if_false]
      exact hsat

theorem statusEq_imp_sameBlock (g : Graph) (hwf : WF g)
    (h64 : g.length ≤ MAX_STATES) {s t : Nat} (hs : s < g.length)
    (ht : t < g.length) (hst : statusEq g s t) :
    sameBlock (refineAllPartitions g) s t :=
  sat_refineLoop g hwf h64 (g.length + 1) (initialPartition g)
    (validPart_initial g) (sat_initial g) s t hs ht hst

theorem removeUnreachable_length_le (g : Graph) (start : Nat) :
    (removeUnreachable g start).length ≤ g.length := by
  unfold removeUnreachable survivors
  rw [List.length_map]
  calc ((List.range g.length).filter
        (· ∈ markReachable g start)).length
      ≤ (List.range g.length).length := List.length_filter_le _ _
    _ = g.length := List.length_range _

theorem removeUnreachable_WF {g : Graph} (hwf : WF g) (start : Nat) :
    WF (removeUnreachable g start) := by
  intro s2 hs2
  have hlen : (removeUnreachable g start).length =
      (survivors g start).length := by
    unfold removeUnreachable
    rw [List.length_map]
  have hmem2 : ∀ i ∈ survivors g start,
      ∀ o : Option Nat, okTarget g.length o →
        okTarget (removeUnreachable g start).length
          (renumber (survivors g start) (clearTarget g start o)) := by
    intro i _ o hok
    cases o with
    | none => trivial
    | some t =>
      have htl : t < g.length := hok
      simp only [clearTarget]
      by_cases hm : t ∈ markReachable g start
      · rw [if_neg (by tauto)]
        have htm : t ∈ survivors g start := by
          unfold survivors
          rw [List.mem_filter]
          exact ⟨List.mem_range.2 htl, by simpa using hm⟩
        have := List.indexOf_lt_length.2 htm
        unfold renumber
        rw [hlen]
        simpa using this
      · rw [if_pos ⟨htl, hm⟩]
        trivial
  unfold removeUnreachable at hs2
  rw [List.mem_map] at hs2
  obtain ⟨i, hi, rfl⟩ := hs2
  have hilen : i < g.length := by
    unfold survivors at hi
    rw [List.mem_filter] at hi
    exact List.mem_range.1 hi.1
  have hsg := stateAt_mem hilen
  constructor
  · exact hmem2 i hi _ (hwf _ hsg).1
  · exact hmem2 i hi _ (hwf _ hsg).2

/-- C1 (amended): for every well-formed input DFA (valid transition
targets, at most `MAX_STATES` states), after pruning and refining to
fixpoint, two states of the pruned graph (these are exactly the reachable
original states, densely renumbered) lie in the same final partition iff
they have the same outcome — accept, reject, or run dies on a missing
transition — on every suffix string.  The "no target" case counts as its
own outcome, distinct from reaching any state, with no implicit completion
into a dead state. -/
theorem C1_nerode_status (g : Graph) (start : Nat) (hwf : WF g)
    (h64 : g.length ≤ MAX_STATES) (s t : Nat)
    (hs : s < (removeUnreachable g start).length)
    (ht : t < (removeUnreachable g start).length) :
    sameBlock (refineAllPartitions (removeUnreachable g start)) s t ↔
      statusEq (removeUnreachable g start) s t := by
  have hwf2 : WF (removeUnreachable g start) := removeUnreachable_WF hwf start
  have h64b : (removeUnreachable g start).length ≤ MAX_STATES := by
    have := removeUnreachable_length_le g start
    omega
  constructor
  · intro hsb w
    exact sameBlock_imp_statusEq _ hwf2 h64b w s t hsb
  · intro hst
    exact statusEq_imp_sameBlock _ hwf2 h64b hs ht hst

theorem C1_nerode_status_witness :
    sameBlock (refineAllPartitions (removeUnreachable gEx2 0)) 1 2 ↔
      statusEq (removeUnreachable gEx2 0) 1 2 :=
  C1_nerode_status gEx2 0 (by decide) (by decide) 1 2 (by decide) (by decide)

theorem accepts_false_of_all_nonfinal {g : Graph}
    (h : ∀ j : Nat, (stateAt g j).isFinal = false) (s : Nat)
    (w : List (Fin 2)) : accepts g s w = false := by
  unfold accepts
  cases hr : run g s w with
  | none => rfl
  | some j => exact h j

theorem gCE_all_nonfinal : ∀ j : Nat, (stateAt gCE j).isFinal = false := by
  intro j
  match j with
  | 0 => rfl
  | 1 => rfl
  | 2 => rfl
  | 3 => rfl
  | j + 4 =>
    show (gCE.getD (j + 4) default).isFinal = false
    have hlen4 : gCE.length ≤ j + 4 := by
      have h4 : gCE.length = 4 := rfl
      omega
    rw [List.getD_eq_getElem?_getD, List.getElem?_eq_none hlen4]
    rfl

/-- C1 (counterexample to the claim as stated, with "accept exactly the
same set of suffix strings" read as equality of accepted languages): in the
pruned four-state graph `gCE` every state accepts the empty language — in
particular the reachable states 1 (whose 0-transition enters the dead state
3) and 2 (which lacks a 0-transition) accept exactly the same suffix
strings — yet refinement separates them, because the "no target" sentinel
is distinct from the dead state's partition id. -/
theorem C1_counterexample :
    removeUnreachable gCE 0 = gCE ∧
    (∀ w : List (Fin 2),
      accepts (removeUnreachable gCE 0) 1 w =
        accepts (removeUnreachable gCE 0) 2 w) ∧
    ¬ sameBlock (refineAllPartitions (removeUnreachable gCE 0)) 1 2 := by
  have heq : removeUnreachable gCE 0 = gCE := by decide
  refine ⟨heq, ?_, by decide⟩
  intro w
  rw [heq, accepts_false_of_all_nonfinal gCE_all_nonfinal 1 w,
    accepts_false_of_all_nonfinal gCE_all_nonfinal 2 w]

theorem indexOf_map_succ :
    ∀ (l : List Nat) (t : Nat),
      (l.map Nat.succ).indexOf (Nat.succ t) = l.indexOf t := by
  intro l t
  induction l with
  | nil => rfl
  | cons a l ih =>
    rw [List.map_cons]
    by_cases h : a = t
    · subst h
      rw [List.indexOf_cons_self, List.indexOf_cons_self]
    · rw [List.indexOf_cons_ne _ (by omega), List.indexOf_cons_ne _ h, ih]

theorem indexOf_range {t n : Nat} (h : t < n) :
    (List.range n).indexOf t = t := by
  induction n generalizing t with
  | zero => omega
  | succ n ih =>
    rw [List.range_succ_eq_map]
    cases t with
    | zero => rw [List.indexOf_cons_self]
    | succ t =>
      rw [List.indexOf_cons_ne _ (by omega), indexOf_map_succ,
        ih (by omega)]

theorem removeUnreachable_eq_self {g : Graph} {start : Nat} (hwf : WF g)
    (hstart : start < g.length)
    (hall : ∀ i < g.length, Reaches g start i) :
    removeUnreachable g start = g := by
  have hmem : ∀ i < g.length, i ∈ markReachable g start := fun i hi =>
    (mem_markReachable_iff hstart).2 (hall i hi)
  have hsurv : survivors g start = List.range g.length := by
    unfold survivors
    apply List.filter_eq_self.2
    intro a ha
    simpa using hmem a (List.mem_range.1 ha)
  unfold removeUnreachable
  rw [hsurv]
  refine List.ext_getElem (by simp) ?_
  intro i h1 h2
  rw [List.getElem_map, List.getElem_range]
  have hi : i < g.length := h2
  have hclr : ∀ o : Option Nat, okTarget g.length o →
      renumber (List.range g.length) (clearTarget g start o) = o := by
    intro o hok
    cases o with
    | none => rfl
    | some t =>
      have htl : t < g.length := hok
      simp only [clearTarget]
      rw [if_neg fun hcon => hcon.2 (hmem t htl)]
      show some ((List.range g.length).indexOf t) = some t
      rw [indexOf_range htl]
  have hwfi := hwf _ (stateAt_mem hi)
  show NState.mk (stateAt g i).name (stateAt g i).isFinal
      (renumber (List.range g.length)
        (clearTarget g start (stateAt g i).next0))
      (renumber (List.range g.length)
        (clearTarget g start (stateAt g i).next1)) = g[i]
  rw [hclr _ hwfi.1, hclr _ hwfi.2]
  have hst : stateAt g i = g[i] := by
    unfold stateAt
    exact getD_eq_getElem_of_lt g default hi
  rw [hst]

theorem sublist_flatten_of_mem :
    ∀ {P : Part} {b : Block}, b ∈ P → b.Sublist P.flatten := by
  intro P
  induction P with
  | nil => intro b hb; simp at hb
  | cons c rest ih =>
    intro b hb
    rw [List.flatten_cons]
    rcases List.mem_cons.1 hb with rfl | hb
    · exact List.sublist_append_left _ _
    · exact (ih hb).trans (List.sublist_append_right _ _)

theorem blocks_singleton_of_distinct {g : Graph} (hwf : WF g)
    (h64 : g.length ≤ MAX_STATES)
    (hdist : ∀ s t : Nat, s < g.length → t < g.length →
      statusEq g s t → s = t) :
    ∀ b ∈ refineAllPartitions g, b.length = 1 := by
  intro b hb
  obtain ⟨hv, _⟩ := refineAll_valid_fix g h64
  have hnd := validPart_flatten_nodup hv
  have hbne := hv.2 b hb
  have hall : ∀ s ∈ b, ∀ t ∈ b, s = t := by
    intro s hs t ht
    have hsb : sameBlock (refineAllPartitions g) s t := ⟨b, hb, hs, ht⟩
    have hst : statusEq g s t := fun w =>
      sameBlock_imp_statusEq g hwf h64 w s t hsb
    exact hdist s t (mem_lt_of_validPart hv hb hs)
      (mem_lt_of_validPart hv hb ht) hst
  have hbnd : b.Nodup := List.Nodup.sublist (sublist_flatten_of_mem hb) hnd
  cases b with
  | nil => exact absurd rfl hbne
  | cons x rest =>
    cases rest with
    | nil => rfl
    | cons y rest2 =>
      have hxy : x = y := hall x (List.mem_cons_self _ _) y
        (List.mem_cons_of_mem _ (List.mem_cons_self _ _))
      have h1 := (List.nodup_cons.1 hbnd).1
      rw [hxy] at h1
      exact absurd (List.mem_cons_self _ _) h1

theorem flatten_length_eq_of_singletons :
    ∀ (P : Part), (∀ b ∈ P, b.length = 1) → P.flatten.length = P.length := by
  intro P
  induction P with
  | nil => intro _; simp
  | cons b rest ih =>
    intro h
    rw [List.flatten_cons, List.length_append,
      ih (fun c hc => h c (List.mem_cons_of_mem _ hc)),
      h b (List.mem_cons_self _ _), List.length_cons]
    omega

theorem buildMin_length {g : Graph} {P : Part} (hne : ∀ b ∈ P, b ≠ []) :
    (buildMin g P).length = P.length := by
  unfold buildMin
  rw [List.length_map]
  have hfilter : P.enum.filter (fun p => p.2.length ≠ 0) = P.enum := by
    apply List.filter_eq_self.2
    intro p hp
    have hp2 : p.2 ∈ P := by
      obtain ⟨hlt, hget⟩ :=
        List.getElem?_eq_some_iff.1 (List.mem_enum_iff_getElem?.1 hp)
      rw [← hget]
      exact List.getElem_mem _
    have := hne p.2 hp2
    simp only [decide_eq_true_eq]
    intro h0
    exact this (List.length_eq_zero.1 h0)
  rw [hfilter, List.enum_length]

/-- C9: running the full pipeline on a DFA that is already minimal — every
state reachable from the start state and no two distinct states with the
same outcome on every suffix string — produces a minimized DFA with exactly
as many states as the input: nothing is pruned, every final partition is a
singleton, and no states merge. -/
theorem C9_minimal_preserved (g : Graph) (start : Nat) (hwf : WF g)
    (h64 : g.length ≤ MAX_STATES) (hstart : start < g.length)
    (hmin : Minimal g start) :
    (minimizeDFA g start).length = g.length := by
  unfold minimizeDFA
  rw [removeUnreachable_eq_self hwf hstart hmin.1]
  obtain ⟨hv, _⟩ := refineAll_valid_fix g h64
  have hsing := blocks_singleton_of_distinct hwf h64 hmin.2
  have hne : ∀ b ∈ refineAllPartitions g, b ≠ [] := hv.2
  rw [buildMin_length hne]
  have h1 : (refineAllPartitions g).flatten.length = g.length := by
    rw [hv.1.length_eq, List.length_range]
  rw [← flatten_length_eq_of_singletons _ hsing, h1]

theorem C9_minimal_preserved_witness :
    (minimizeDFA gB 0).length = gB.length := by
  refine C9_minimal_preserved gB 0 (by decide) (by decide) (by decide) ⟨?_, ?_⟩
  · intro i hi
    match i, hi with
    | 0, _ => exact Relation.ReflTransGen.refl
    | 1, _ => exact Relation.ReflTransGen.single (by decide)
  · intro s t hs ht hst
    have h0 := hst []
    match s, hs, t, ht with
    | 0, _, 0, _ => rfl
    | 1, _, 1, _ => rfl
    | 0, _, 1, _ => exact absurd h0 (by decide)
    | 1, _, 0, _ => exact absurd h0 (by decide)

theorem C3_removeUnreachable_witness :
    0 < gEx2.length ∧ WF gEx2 ∧
      ((survivors gEx2 0).Pairwise (· < ·) ∧
        (removeUnreachable gEx2 0).length = (survivors gEx2 0).length) :=
  ⟨by decide, by decide,
    (C3_removeUnreachable gEx2 0 (by decide) (by decide)).2.1,
    (C3_removeUnreachable gEx2 0 (by decide) (by decide)).2.2.1⟩

end DFAC
